import Mathlib

/-!
# Verification of the GEMD JSON graph-serialization engine

This file is a shallow embedding of `gemd/json/gemd_json.py` (class `GEMDJson`):
the flatten / link-substitution / reconstitution engine for entity graphs and its
polymorphic (de)serialization dispatcher.

The Python code delegates the text layer to the standard `json` module
(`json.dumps(..., cls=GEMDEncoder, sort_keys=True)` and
`json.loads(..., object_hook=...)`).  We model that layer concretely: `JVal` is a
JSON document tree, `jprint` renders it to text (object keys are emitted in the
order they appear in the tree; the encoder sorts them, mirroring
`sort_keys=True`), and `jparse` parses text back, applying downstream hooks
bottom-up exactly as `json.loads` applies `object_hook`.

Helper functions of the repository that are not part of the shown source
(`flatten`, `substitute_links`, `set_uuids` from `gemd.util`, the `GEMDEncoder`,
`LinkByUID` and the entity contract) are modelled from the spec; each such
definition carries a doc comment saying so.
-/

/-- A JSON document tree: the wire-level value space of the engine. -/
inductive JVal where
  | jnull
  | jbool (b : Bool)
  | jnum (n : Int)
  | jstr (s : String)
  | jarr (xs : List JVal)
  | jobj (fs : List (String × JVal))

def quoteChar : Char := Char.ofNat 34

def backslashChar : Char := Char.ofNat 92

def lbraceChar : Char := Char.ofNat 123

def rbraceChar : Char := Char.ofNat 125

def lbrackChar : Char := '['

def rbrackChar : Char := ']'

def commaChar : Char := ','

def colonChar : Char := ':'

/-- Escape a raw character sequence for inclusion in a JSON string literal. -/
def escChars : List Char → List Char
  | [] => []
  | c :: cs =>
    if c = quoteChar ∨ c = backslashChar then backslashChar :: c :: escChars cs
    else c :: escChars cs

def digitChar (d : Nat) : Char := Char.ofNat (48 + d)

/-- Little-endian decimal digits of `n`, with explicit fuel (`fuel ≥ n` suffices). -/
def natCharsAux : Nat → Nat → List Char
  | 0, _ => []
  | _ + 1, 0 => []
  | fuel + 1, n + 1 => digitChar ((n + 1) % 10) :: natCharsAux fuel ((n + 1) / 10)

/-- Decimal rendering of a natural number. -/
def natChars (n : Nat) : List Char :=
  if n = 0 then [digitChar 0] else (natCharsAux n n).reverse

/-- Decimal rendering of an integer. -/
def intChars (n : Int) : List Char :=
  if n < 0 then '-' :: natChars n.natAbs else natChars n.natAbs

/-- A JSON string literal: quote, escaped body, quote. -/
def strChars (s : String) : List Char :=
  quoteChar :: (escChars s.data ++ [quoteChar])

mutual

/-- Render a JSON value to text (no whitespace, like compact separators). -/
def jprintV : JVal → List Char
  | .jnull => ['n', 'u', 'l', 'l']
  | .jbool true => ['t', 'r', 'u', 'e']
  | .jbool false => ['f', 'a', 'l', 's', 'e']
  | .jnum n => intChars n
  | .jstr s => strChars s
  | .jarr xs => lbrackChar :: (jprintL xs ++ [rbrackChar])
  | .jobj fs => lbraceChar :: (jprintF fs ++ [rbraceChar])

def jprintL : List JVal → List Char
  | [] => []
  | [x] => jprintV x
  | x :: y :: l => jprintV x ++ commaChar :: jprintL (y :: l)

def jprintF : List (String × JVal) → List Char
  | [] => []
  | [(k, v)] => strChars k ++ colonChar :: jprintV v
  | (k, v) :: p :: l => strChars k ++ colonChar :: jprintV v ++ commaChar :: jprintF (p :: l)

end

def jprint (j : JVal) : String := String.mk (jprintV j)

def charVal (c : Char) : Nat := c.toNat - 48

/-- Consume a maximal run of decimal digits, folding them into `acc`. -/
def readDigits : List Char → Nat → Nat × List Char
  | [], acc => (acc, [])
  | c :: cs, acc =>
    if c.isDigit then readDigits cs (acc * 10 + charVal c) else (acc, c :: cs)

/-- Read a JSON string body up to the closing quote, undoing escapes. -/
def readStr : List Char → Option (List Char × List Char)
  | [] => none
  | c :: cs =>
    if c = quoteChar then some ([], cs)
    else if c = backslashChar then
      match cs with
      | [] => none
      | d :: ds =>
        match readStr ds with
        | some (s, rest) => some (d :: s, rest)
        | none => none
    else
      match readStr cs with
      | some (s, rest) => some (c :: s, rest)
      | none => none

mutual

/-- Recursive-descent parser for the output of `jprintV`, with explicit fuel. -/
def parseV : Nat → List Char → Option (JVal × List Char)
  | 0, _ => none
  | _ + 1, [] => none
  | fuel + 1, c :: cs =>
    if c = 'n' then
      match cs with
      | 'u' :: 'l' :: 'l' :: rest => some (.jnull, rest)
      | _ => none
    else if c = 't' then
      match cs with
      | 'r' :: 'u' :: 'e' :: rest => some (.jbool true, rest)
      | _ => none
    else if c = 'f' then
      match cs with
      | 'a' :: 'l' :: 's' :: 'e' :: rest => some (.jbool false, rest)
      | _ => none
    else if c = quoteChar then
      match readStr cs with
      | some (s, rest) => some (.jstr (String.mk s), rest)
      | none => none
    else if c = lbrackChar then
      match cs with
      | [] => none
      | d :: rest' =>
        if d = rbrackChar then some (.jarr [], rest')
        else
          match parseL fuel (d :: rest') with
          | some (vs, rest) => some (.jarr vs, rest)
          | none => none
    else if c = lbraceChar then
      match cs with
      | [] => none
      | d :: rest' =>
        if d = rbraceChar then some (.jobj [], rest')
        else
          match parseF fuel (d :: rest') with
          | some (ps, rest) => some (.jobj ps, rest)
          | none => none
    else if c = '-' then
      match cs with
      | [] => none
      | d :: _ =>
        if d.isDigit then
          match readDigits cs 0 with
          | (n, rest) => some (.jnum (-(n : Int)), rest)
        else none
    else if c.isDigit then
      match readDigits (c :: cs) 0 with
      | (n, rest) => some (.jnum (n : Int), rest)
    else none

/-- Parse `elem (, elem)* ]`, consuming the closing bracket. -/
def parseL : Nat → List Char → Option (List JVal × List Char)
  | 0, _ => none
  | fuel + 1, cs =>
    match parseV fuel cs with
    | some (v, rest) =>
      match rest with
      | [] => none
      | c :: rest' =>
        if c = commaChar then
          match parseL fuel rest' with
          | some (vs, rest'') => some (v :: vs, rest'')
          | none => none
        else if c = rbrackChar then some ([v], rest')
        else none
    | none => none

/-- Parse `"key":val (, "key":val)* RBRACE`, consuming the closing brace. -/
def parseF : Nat → List Char → Option (List (String × JVal) × List Char)
  | 0, _ => none
  | fuel + 1, cs =>
    match cs with
    | [] => none
    | c :: rest =>
      if c = quoteChar then
        match readStr rest with
        | some (k, rest₁) =>
          match rest₁ with
          | [] => none
          | d :: rest₂ =>
            if d = colonChar then
              match parseV fuel rest₂ with
              | some (v, rest₃) =>
                match rest₃ with
                | [] => none
                | e :: rest₄ =>
                  if e = commaChar then
                    match parseF fuel rest₄ with
                    | some (ps, r) => some ((String.mk k, v) :: ps, r)
                    | none => none
                  else if e = rbraceChar then some ([(String.mk k, v)], rest₄)
                  else none
              | none => none
            else none
        | none => none
      else none

end

/-- Parse a complete document: the whole input must be consumed. -/
def jparse (s : String) : Option JVal :=
  match parseV (s.data.length + 1) s.data with
  | some (j, []) => some j
  | _ => none

/-! ## Size measures and induction principle for `JVal` -/

mutual

def jsizeV : JVal → Nat
  | .jnull => 1
  | .jbool _ => 1
  | .jnum _ => 1
  | .jstr _ => 1
  | .jarr xs => jsizeL xs + 1
  | .jobj fs => jsizeF fs + 1

def jsizeL : List JVal → Nat
  | [] => 0
  | x :: l => jsizeV x + jsizeL l + 1

def jsizeF : List (String × JVal) → Nat
  | [] => 0
  | (_, v) :: l => jsizeV v + jsizeF l + 1

end

theorem jsizeV_pos (j : JVal) : 1 ≤ jsizeV j := by
  cases j <;> simp [jsizeV]

/-- Simultaneous induction over JSON values, element lists and field lists. -/
theorem jval_triple_ind (PV : JVal → Prop) (PL : List JVal → Prop)
    (PF : List (String × JVal) → Prop)
    (hnull : PV .jnull) (hbool : ∀ b, PV (.jbool b)) (hnum : ∀ n, PV (.jnum n))
    (hstr : ∀ s, PV (.jstr s))
    (harr : ∀ xs, PL xs → PV (.jarr xs)) (hobj : ∀ fs, PF fs → PV (.jobj fs))
    (hLnil : PL []) (hLcons : ∀ x l, PV x → PL l → PL (x :: l))
    (hFnil : PF []) (hFcons : ∀ k v l, PV v → PF l → PF ((k, v) :: l)) :
    (∀ j, PV j) ∧ (∀ l, PL l) ∧ (∀ l, PF l) := by
  have key : ∀ k, (∀ j, jsizeV j ≤ k → PV j) ∧ (∀ l, jsizeL l ≤ k → PL l) ∧
      (∀ l, jsizeF l ≤ k → PF l) := by
    intro k
    induction k with
    | zero =>
      refine ⟨fun j hj => absurd (jsizeV_pos j) (by omega), fun l hl => ?_, fun l hl => ?_⟩
      · cases l with
        | nil => exact hLnil
        | cons x t => simp [jsizeL] at hl
      · cases l with
        | nil => exact hFnil
        | cons p t => obtain ⟨a, b⟩ := p; simp [jsizeF] at hl
    | succ k ih =>
      obtain ⟨iV, iL, iF⟩ := ih
      refine ⟨fun j hj => ?_, fun l hl => ?_, fun l hl => ?_⟩
      · cases j with
        | jnull => exact hnull
        | jbool b => exact hbool b
        | jnum n => exact hnum n
        | jstr s => exact hstr s
        | jarr xs => exact harr xs (iL xs (by simp [jsizeV] at hj; omega))
        | jobj fs => exact hobj fs (iF fs (by simp [jsizeV] at hj; omega))
      · cases l with
        | nil => exact hLnil
        | cons x t =>
          simp [jsizeL] at hl
          exact hLcons x t (iV x (by omega)) (iL t (by omega))
      · cases l with
        | nil => exact hFnil
        | cons p t =>
          obtain ⟨a, v⟩ := p
          simp [jsizeF] at hl
          exact hFcons a v t (iV v (by omega)) (iF t (by omega))
  exact ⟨fun j => (key (jsizeV j)).1 j le_rfl, fun l => (key (jsizeL l)).2.1 l le_rfl,
    fun l => (key (jsizeF l)).2.2 l le_rfl⟩

/-! ## Decimal printing/parsing lemmas -/

theorem charVal_digitChar (d : Nat) (h : d < 10) : charVal (digitChar d) = d := by
  interval_cases d <;> rfl

theorem isDigit_digitChar (d : Nat) (h : d < 10) : (digitChar d).isDigit = true := by
  interval_cases d <;> rfl

def valLE : List Char → Nat
  | [] => 0
  | c :: cs => charVal c + 10 * valLE cs

theorem natCharsAux_val (fuel : Nat) : ∀ n, n ≤ fuel → valLE (natCharsAux fuel n) = n := by
  induction fuel with
  | zero => intro n h; interval_cases n; simp [natCharsAux, valLE]
  | succ f ih =>
    intro n h
    match n with
    | 0 => simp [natCharsAux, valLE]
    | n + 1 =>
      have hlt : (n + 1) / 10 < n + 1 := Nat.div_lt_self (by omega) (by omega)
      have hdiv : (n + 1) / 10 ≤ f := by omega
      simp only [natCharsAux, valLE]
      rw [charVal_digitChar _ (Nat.mod_lt _ (by omega)), ih _ hdiv]
      omega

theorem natCharsAux_digits (fuel : Nat) : ∀ n, ∀ c ∈ natCharsAux fuel n, c.isDigit = true := by
  induction fuel with
  | zero => intro n c hc; simp [natCharsAux] at hc
  | succ f ih =>
    intro n c hc
    match n with
    | 0 => simp [natCharsAux] at hc
    | n + 1 =>
      simp only [natCharsAux, List.mem_cons] at hc
      rcases hc with h | h
      · subst h; exact isDigit_digitChar _ (Nat.mod_lt _ (by omega))
      · exact ih _ c h

theorem natChars_digits (n : Nat) : ∀ c ∈ natChars n, c.isDigit = true := by
  intro c hc
  by_cases h : n = 0
  · subst h; simp [natChars] at hc; subst hc; rfl
  · simp only [natChars, if_neg h, List.mem_reverse] at hc
    exact natCharsAux_digits n n c hc

theorem natChars_ne_nil (n : Nat) : natChars n ≠ [] := by
  by_cases h : n = 0
  · subst h; simp [natChars]
  · simp only [natChars, if_neg h]
    match hn : n with
    | 0 => omega
    | m + 1 => simp [natCharsAux]

def valBE : List Char → Nat → Nat
  | [], acc => acc
  | c :: cs, acc => valBE cs (acc * 10 + charVal c)

def noDigitHead : List Char → Bool
  | [] => true
  | c :: _ => !c.isDigit

theorem readDigits_append (ds : List Char) : ∀ (rest : List Char) (acc : Nat),
    (∀ c ∈ ds, c.isDigit = true) → noDigitHead rest = true →
    readDigits (ds ++ rest) acc = (valBE ds acc, rest) := by
  induction ds with
  | nil =>
    intro rest acc _ hr
    cases rest with
    | nil => rfl
    | cons c cs =>
      simp [noDigitHead] at hr
      simp [readDigits, valBE, hr]
  | cons c cs ih =>
    intro rest acc hd hr
    have hc : c.isDigit = true := hd c (by simp)
    simp only [List.cons_append, readDigits, hc, if_pos, valBE]
    exact ih rest _ (fun x hx => hd x (by simp [hx])) hr

theorem valBE_append_last (xs : List Char) (c : Char) : ∀ acc,
    valBE (xs ++ [c]) acc = valBE xs acc * 10 + charVal c := by
  induction xs with
  | nil => intro acc; simp [valBE]
  | cons x l ih => intro acc; simp [valBE, ih]

theorem valBE_reverse (l : List Char) : valBE l.reverse 0 = valLE l := by
  induction l with
  | nil => rfl
  | cons c cs ih =>
    simp only [List.reverse_cons, valBE_append_last, ih, valLE]
    omega

theorem readDigits_natChars (n : Nat) (rest : List Char) (hr : noDigitHead rest = true) :
    readDigits (natChars n ++ rest) 0 = (n, rest) := by
  rw [readDigits_append (natChars n) rest 0 (natChars_digits n) hr]
  by_cases h : n = 0
  · subst h; simp [natChars, valBE]; rfl
  · simp only [natChars, if_neg h, valBE_reverse]
    rw [natCharsAux_val n n le_rfl]

theorem natChars_head (n : Nat) :
    ∃ c cs, natChars n = c :: cs ∧ c.isDigit = true := by
  cases h : natChars n with
  | nil => exact absurd h (natChars_ne_nil n)
  | cons c cs =>
    exact ⟨c, cs, rfl, natChars_digits n c (by rw [h]; simp)⟩

/-! ## JSON string literal round-trip -/

theorem backslash_ne_quote : backslashChar ≠ quoteChar := by decide

theorem readStr_esc (l : List Char) : ∀ rest,
    readStr (escChars l ++ quoteChar :: rest) = some (l, rest) := by
  induction l with
  | nil =>
    intro rest
    simp only [escChars, List.nil_append]
    rw [readStr.eq_def]
    simp
  | cons c cs ih =>
    intro rest
    by_cases h : c = quoteChar ∨ c = backslashChar
    · rw [escChars, if_pos h, List.cons_append, List.cons_append, readStr.eq_def]
      simp [backslash_ne_quote, ih]
    · push_neg at h
      rw [escChars, if_neg (by tauto), List.cons_append, readStr.eq_def]
      simp [h.1, h.2, ih]

/-! ## Parser unfolding and head-character lemmas -/

theorem parseV_succ_cons (f : Nat) (c : Char) (cs : List Char) :
    parseV (f + 1) (c :: cs) =
      (if c = 'n' then
        match cs with
        | 'u' :: 'l' :: 'l' :: rest => some (.jnull, rest)
        | _ => none
      else if c = 't' then
        match cs with
        | 'r' :: 'u' :: 'e' :: rest => some (.jbool true, rest)
        | _ => none
      else if c = 'f' then
        match cs with
        | 'a' :: 'l' :: 's' :: 'e' :: rest => some (.jbool false, rest)
        | _ => none
      else if c = quoteChar then
        match readStr cs with
        | some (s, rest) => some (.jstr (String.mk s), rest)
        | none => none
      else if c = lbrackChar then
        match cs with
        | [] => none
        | d :: rest' =>
          if d = rbrackChar then some (.jarr [], rest')
          else
            match parseL f (d :: rest') with
            | some (vs, rest) => some (.jarr vs, rest)
            | none => none
      else if c = lbraceChar then
        match cs with
        | [] => none
        | d :: rest' =>
          if d = rbraceChar then some (.jobj [], rest')
          else
            match parseF f (d :: rest') with
            | some (ps, rest) => some (.jobj ps, rest)
            | none => none
      else if c = '-' then
        match cs with
        | [] => none
        | d :: _ =>
          if d.isDigit then
            match readDigits cs 0 with
            | (n, rest) => some (.jnum (-(n : Int)), rest)
          else none
      else if c.isDigit then
        match readDigits (c :: cs) 0 with
        | (n, rest) => some (.jnum (n : Int), rest)
      else none) := rfl

theorem parseL_succ (f : Nat) (cs : List Char) :
    parseL (f + 1) cs =
      (match parseV f cs with
      | some (v, rest) =>
        match rest with
        | [] => none
        | c :: rest' =>
          if c = commaChar then
            match parseL f rest' with
            | some (vs, rest'') => some (v :: vs, rest'')
            | none => none
          else if c = rbrackChar then some ([v], rest')
          else none
      | none => none) := rfl

theorem parseF_succ (f : Nat) (cs : List Char) :
    parseF (f + 1) cs =
      (match cs with
      | [] => none
      | c :: rest =>
        if c = quoteChar then
          match readStr rest with
          | some (k, rest₁) =>
            match rest₁ with
            | [] => none
            | d :: rest₂ =>
              if d = colonChar then
                match parseV f rest₂ with
                | some (v, rest₃) =>
                  match rest₃ with
                  | [] => none
                  | e :: rest₄ =>
                    if e = commaChar then
                      match parseF f rest₄ with
                      | some (ps, r) => some ((String.mk k, v) :: ps, r)
                      | none => none
                    else if e = rbraceChar then some ([(String.mk k, v)], rest₄)
                    else none
                | none => none
              else none
          | none => none
        else none) := rfl

theorem parseV_digit (f : Nat) (c : Char) (cs : List Char) (h : c.isDigit = true) :
    parseV (f + 1) (c :: cs) =
      (match readDigits (c :: cs) 0 with
       | (n, rest) => some (.jnum (n : Int), rest)) := by
  have h1 : ¬ c = 'n' := by rintro rfl; exact absurd h (by decide)
  have h2 : ¬ c = 't' := by rintro rfl; exact absurd h (by decide)
  have h3 : ¬ c = 'f' := by rintro rfl; exact absurd h (by decide)
  have h4 : ¬ c = quoteChar := by rintro rfl; exact absurd h (by decide)
  have h5 : ¬ c = lbrackChar := by rintro rfl; exact absurd h (by decide)
  have h6 : ¬ c = lbraceChar := by rintro rfl; exact absurd h (by decide)
  have h7 : ¬ c = '-' := by rintro rfl; exact absurd h (by decide)
  rw [parseV_succ_cons, if_neg h1, if_neg h2, if_neg h3, if_neg h4, if_neg h5, if_neg h6,
    if_neg h7, if_pos h]

/-- The first character of a printed JSON value is never a closing
delimiter, a comma or a colon. -/
theorem jprintV_head (j : JVal) :
    ∃ c cs, jprintV j = c :: cs ∧ c ≠ rbrackChar ∧ c ≠ rbraceChar ∧
      c ≠ commaChar ∧ c ≠ colonChar := by
  cases j with
  | jnull => exact ⟨'n', _, rfl, by decide, by decide, by decide, by decide⟩
  | jbool b =>
    cases b with
    | true => exact ⟨'t', _, rfl, by decide, by decide, by decide, by decide⟩
    | false => exact ⟨'f', _, rfl, by decide, by decide, by decide, by decide⟩
  | jnum n =>
    show ∃ c cs, intChars n = c :: cs ∧ _
    by_cases h : n < 0
    · exact ⟨'-', _, by rw [intChars, if_pos h], by decide, by decide, by decide, by decide⟩
    · obtain ⟨c, cs, heq, hdig⟩ := natChars_head n.natAbs
      refine ⟨c, cs, by rw [intChars, if_neg h, heq], ?_, ?_, ?_, ?_⟩ <;>
        (rintro rfl; exact absurd hdig (by decide))
  | jstr s => exact ⟨quoteChar, _, rfl, by decide, by decide, by decide, by decide⟩
  | jarr xs => exact ⟨lbrackChar, _, rfl, by decide, by decide, by decide, by decide⟩
  | jobj fs => exact ⟨lbraceChar, _, rfl, by decide, by decide, by decide, by decide⟩

theorem parseV_quote (f : Nat) (t : List Char) :
    parseV (f + 1) (quoteChar :: t) =
      (match readStr t with
       | some (s, rest) => some (.jstr (String.mk s), rest)
       | none => none) := rfl

theorem parseV_lbrack (f : Nat) (d : Char) (rest' : List Char) :
    parseV (f + 1) (lbrackChar :: d :: rest') =
      (if d = rbrackChar then some (.jarr [], rest')
       else
        match parseL f (d :: rest') with
        | some (vs, rest) => some (.jarr vs, rest)
        | none => none) := rfl

theorem parseV_lbrace (f : Nat) (d : Char) (rest' : List Char) :
    parseV (f + 1) (lbraceChar :: d :: rest') =
      (if d = rbraceChar then some (.jobj [], rest')
       else
        match parseF f (d :: rest') with
        | some (ps, rest) => some (.jobj ps, rest)
        | none => none) := rfl

theorem parseV_neg (f : Nat) (d : Char) (ds : List Char) :
    parseV (f + 1) ('-' :: d :: ds) =
      (if d.isDigit then
        match readDigits (d :: ds) 0 with
        | (n, rest) => some (.jnum (-(n : Int)), rest)
      else none) := rfl

theorem parseF_quote (f : Nat) (t : List Char) :
    parseF (f + 1) (quoteChar :: t) =
      (match readStr t with
       | some (k, rest₁) =>
         match rest₁ with
         | [] => none
         | d :: rest₂ =>
           if d = colonChar then
             match parseV f rest₂ with
             | some (v, rest₃) =>
               match rest₃ with
               | [] => none
               | e :: rest₄ =>
                 if e = commaChar then
                   match parseF f rest₄ with
                   | some (ps, r) => some ((String.mk k, v) :: ps, r)
                   | none => none
                 else if e = rbraceChar then some ([(String.mk k, v)], rest₄)
                 else none
             | none => none
           else none
       | none => none) := rfl

theorem jprintL_cons (x : JVal) (l : List JVal) :
    ∃ t, jprintL (x :: l) = jprintV x ++ t := by
  cases l with
  | nil => exact ⟨[], by simp [jprintL]⟩
  | cons y l' => exact ⟨commaChar :: jprintL (y :: l'), rfl⟩

theorem jprintF_cons (k : String) (v : JVal) (l : List (String × JVal)) :
    ∃ t, jprintF ((k, v) :: l) = quoteChar :: t := by
  cases l with
  | nil => exact ⟨escChars k.data ++ quoteChar :: colonChar :: jprintV v, by simp [jprintF, strChars]⟩
  | cons p l' =>
    exact ⟨escChars k.data ++ quoteChar :: colonChar :: (jprintV v ++ commaChar :: jprintF (p :: l')),
      by simp [jprintF, strChars]⟩

theorem intChars_ne_nil (n : Int) : intChars n ≠ [] := by
  rw [intChars]
  split
  · simp
  · exact natChars_ne_nil n.natAbs

/-! ## Size bound: the parser fuel `length + 1` always suffices -/

theorem jsize_le_len :
    (∀ j, jsizeV j ≤ (jprintV j).length) ∧
    (∀ l, jsizeL l ≤ (jprintL l).length + 1) ∧
    (∀ l, jsizeF l ≤ (jprintF l).length + 1) := by
  refine jval_triple_ind _ _ _ ?_ ?_ ?_ ?_ ?_ ?_ ?_ ?_ ?_ ?_
  · simp [jsizeV, jprintV]
  · intro b; cases b <;> simp [jsizeV, jprintV]
  · intro n
    have h1 : intChars n ≠ [] := intChars_ne_nil n
    have h2 : 1 ≤ (intChars n).length := by
      cases h : intChars n with
      | nil => exact absurd h h1
      | cons c cs => simp
    simpa [jsizeV, jprintV] using h2
  · intro s; simp [jsizeV, jprintV, strChars]
  · intro xs h; simp only [jsizeV, jprintV, List.length_cons, List.length_append]; simp; omega
  · intro fs h; simp only [jsizeV, jprintV, List.length_cons, List.length_append]; simp; omega
  · simp [jsizeL, jprintL]
  · intro x l hx hl
    cases l with
    | nil => simp only [jsizeL, jprintL]; omega
    | cons y l' =>
      simp only [jsizeL, jprintL, List.length_append, List.length_cons]
      have := hl
      simp only [jsizeL] at this
      omega
  · simp [jsizeF, jprintF]
  · intro k v l hv hl
    cases l with
    | nil => simp only [jsizeF, jprintF, List.length_append, List.length_cons]; omega
    | cons p l' =>
      simp only [jsizeF] at hl
      simp only [jsizeF, jprintF, List.length_append, List.length_cons]
      omega

/-! ## The parse/print round trip -/

theorem parse_print :
    (∀ j, ∀ fuel rest, jsizeV j ≤ fuel → noDigitHead rest = true →
        parseV fuel (jprintV j ++ rest) = some (j, rest)) ∧
    (∀ xs : List JVal, ∀ fuel rest, xs ≠ [] → jsizeL xs ≤ fuel →
        parseL fuel (jprintL xs ++ rbrackChar :: rest) = some (xs, rest)) ∧
    (∀ fs : List (String × JVal), ∀ fuel rest, fs ≠ [] → jsizeF fs ≤ fuel →
        parseF fuel (jprintF fs ++ rbraceChar :: rest) = some (fs, rest)) := by
  refine jval_triple_ind _ _ _ ?_ ?_ ?_ ?_ ?_ ?_ ?_ ?_ ?_ ?_
  · -- null
    intro fuel rest hs _
    cases fuel with
    | zero => simp [jsizeV] at hs
    | succ f => rfl
  · -- bool
    intro b fuel rest hs _
    cases fuel with
    | zero => simp [jsizeV] at hs
    | succ f => cases b <;> rfl
  · -- num
    intro n fuel rest hs hr
    cases fuel with
    | zero => simp [jsizeV] at hs
    | succ f =>
      by_cases hn : n < 0
      · obtain ⟨c, cs0, heq, hdig⟩ := natChars_head n.natAbs
        have hlist : jprintV (.jnum n) ++ rest = '-' :: c :: (cs0 ++ rest) := by
          simp [jprintV, intChars, if_pos hn, heq]
        rw [hlist, parseV_neg, if_pos hdig]
        have hrd : readDigits (c :: (cs0 ++ rest)) 0 = (n.natAbs, rest) := by
          have h2 := readDigits_natChars n.natAbs rest hr
          rw [heq] at h2
          simpa using h2
        rw [hrd]
        show some (JVal.jnum (-((n.natAbs : Nat) : Int)), rest) = some (.jnum n, rest)
        have hval : -((n.natAbs : Nat) : Int) = n := by omega
        rw [hval]
      · obtain ⟨c, cs0, heq, hdig⟩ := natChars_head n.natAbs
        have hlist : jprintV (.jnum n) ++ rest = c :: (cs0 ++ rest) := by
          simp [jprintV, intChars, if_neg hn, heq]
        rw [hlist, parseV_digit f c _ hdig]
        have hrd : readDigits (c :: (cs0 ++ rest)) 0 = (n.natAbs, rest) := by
          have h2 := readDigits_natChars n.natAbs rest hr
          rw [heq] at h2
          simpa using h2
        rw [hrd]
        show some (JVal.jnum ((n.natAbs : Nat) : Int), rest) = some (.jnum n, rest)
        have hval : ((n.natAbs : Nat) : Int) = n := by omega
        rw [hval]
  · -- str
    intro s fuel rest hs _
    cases fuel with
    | zero => simp [jsizeV] at hs
    | succ f =>
      have hlist : jprintV (.jstr s) ++ rest = quoteChar :: (escChars s.data ++ quoteChar :: rest) := by
        simp [jprintV, strChars]
      rw [hlist, parseV_quote, readStr_esc]
  · -- arr
    intro xs hPL fuel rest hs hr
    cases fuel with
    | zero => exact absurd (le_trans (jsizeV_pos _) hs) (by omega)
    | succ f =>
      cases xs with
      | nil => rfl
      | cons x l =>
        obtain ⟨c, cs0, heq, hne1, hne2, _, _⟩ := jprintV_head x
        obtain ⟨t, hT⟩ := jprintL_cons x l
        have hlist : jprintV (.jarr (x :: l)) ++ rest =
            lbrackChar :: c :: (cs0 ++ t ++ rbrackChar :: rest) := by
          simp [jprintV, hT, heq]
        rw [hlist, parseV_lbrack, if_neg hne1]
        have hback : (c :: (cs0 ++ t ++ rbrackChar :: rest) : List Char) =
            jprintL (x :: l) ++ rbrackChar :: rest := by
          rw [hT, heq]; simp
        rw [hback, hPL f rest (by simp) (by simp [jsizeV] at hs; omega)]
  · -- obj
    intro fs hPF fuel rest hs hr
    cases fuel with
    | zero => exact absurd (le_trans (jsizeV_pos _) hs) (by omega)
    | succ f =>
      cases fs with
      | nil => rfl
      | cons p l =>
        obtain ⟨k, v⟩ := p
        obtain ⟨t, hT⟩ := jprintF_cons k v l
        have hlist : jprintV (.jobj ((k, v) :: l)) ++ rest =
            lbraceChar :: quoteChar :: (t ++ rbraceChar :: rest) := by
          simp [jprintV, hT]
        rw [hlist, parseV_lbrace, if_neg (by decide : ¬ quoteChar = rbraceChar)]
        have hback : (quoteChar :: (t ++ rbraceChar :: rest) : List Char) =
            jprintF ((k, v) :: l) ++ rbraceChar :: rest := by
          rw [hT]; simp
        rw [hback, hPF f rest (by simp) (by simp [jsizeV] at hs; omega)]
  · -- list nil (vacuous)
    intro fuel rest hne _
    exact absurd rfl hne
  · -- list cons
    intro x l hPV hPL fuel rest _ hs
    cases fuel with
    | zero => simp [jsizeL] at hs
    | succ f =>
      rw [parseL_succ]
      cases l with
      | nil =>
        have hlist : jprintL [x] ++ rbrackChar :: rest = jprintV x ++ rbrackChar :: rest := by
          simp [jprintL]
        rw [hlist, hPV f (rbrackChar :: rest) (by simp [jsizeL] at hs; omega) rfl]
        rfl
      | cons y l' =>
        have hlist : jprintL (x :: y :: l') ++ rbrackChar :: rest =
            jprintV x ++ commaChar :: (jprintL (y :: l') ++ rbrackChar :: rest) := by
          simp [jprintL]
        rw [hlist, hPV f (commaChar :: (jprintL (y :: l') ++ rbrackChar :: rest))
          (by simp [jsizeL] at hs; omega) rfl]
        have hrec := hPL f rest (by simp) (by simp only [jsizeL] at hs ⊢; omega)
        show (match parseL f (jprintL (y :: l') ++ rbrackChar :: rest) with
          | some (vs, rest'') => some (x :: vs, rest'')
          | none => none) = some (x :: y :: l', rest)
        rw [hrec]
  · -- fields nil (vacuous)
    intro fuel rest hne _
    exact absurd rfl hne
  · -- fields cons
    intro k v l hPV hPF fuel rest _ hs
    cases fuel with
    | zero => simp [jsizeF] at hs
    | succ f =>
      cases l with
      | nil =>
        have hlist : jprintF [(k, v)] ++ rbraceChar :: rest =
            quoteChar :: (escChars k.data ++ quoteChar :: (colonChar :: (jprintV v ++ rbraceChar :: rest))) := by
          simp [jprintF, strChars]
        rw [hlist, parseF_quote, readStr_esc]
        show (match parseV f (jprintV v ++ rbraceChar :: rest) with
          | some (w, rest₃) =>
            match rest₃ with
            | [] => none
            | e :: rest₄ =>
              if e = commaChar then
                match parseF f rest₄ with
                | some (ps, r) => some ((k, w) :: ps, r)
                | none => none
              else if e = rbraceChar then some ([(k, w)], rest₄)
              else none
          | none => none) = some ([(k, v)], rest)
        rw [hPV f (rbraceChar :: rest) (by simp [jsizeF] at hs; omega) rfl]
        rfl
      | cons p l' =>
        have hlist : jprintF ((k, v) :: p :: l') ++ rbraceChar :: rest =
            quoteChar :: (escChars k.data ++ quoteChar ::
              (colonChar :: (jprintV v ++ commaChar :: (jprintF (p :: l') ++ rbraceChar :: rest)))) := by
          simp [jprintF, strChars]
        rw [hlist, parseF_quote, readStr_esc]
        show (match parseV f (jprintV v ++ commaChar :: (jprintF (p :: l') ++ rbraceChar :: rest)) with
          | some (w, rest₃) =>
            match rest₃ with
            | [] => none
            | e :: rest₄ =>
              if e = commaChar then
                match parseF f rest₄ with
                | some (ps, r) => some ((k, w) :: ps, r)
                | none => none
              else if e = rbraceChar then some ([(k, w)], rest₄)
              else none
          | none => none) = some ((k, v) :: p :: l', rest)
        rw [hPV f (commaChar :: (jprintF (p :: l') ++ rbraceChar :: rest))
          (by simp [jsizeF] at hs; omega) rfl]
        show (match parseF f (jprintF (p :: l') ++ rbraceChar :: rest) with
          | some (ps, r) => some ((k, v) :: ps, r)
          | none => none) = some ((k, v) :: p :: l', rest)
        have hrec := hPF f rest (by simp) (by simp only [jsizeF] at hs ⊢; omega)
        rw [hrec]

/-- Round trip of the modelled JSON text layer: parsing a printed document
returns exactly the document. -/
theorem jparse_jprint (j : JVal) : jparse (jprint j) = some j := by
  have hfuel : jsizeV j ≤ (jprintV j).length + 1 :=
    le_trans (jsize_le_len.1 j) (by omega)
  have h := parse_print.1 j ((jprintV j).length + 1) [] hfuel rfl
  rw [List.append_nil] at h
  show (match parseV ((jprint j).data.length + 1) (jprint j).data with
    | some (j, []) => some j
    | _ => none) = some j
  have hdata : (jprint j).data = jprintV j := rfl
  rw [hdata, h]

/-! ## The in-memory object graph -/

/-- In-memory values of a gemd object graph.  Entity instances live in a store
(`List Entity`) and are referenced by address (`ref`), which models Python object
identity: two occurrences of `ref a` are two pointers to one instance.  `link` is a
`LinkByUID` token; `record` is a non-entity `DictSerializable` (bounds, values,
attributes, ...), carried inline. -/
inductive GVal where
  | gnull
  | gbool (b : Bool)
  | gnum (n : Int)
  | gstr (s : String)
  | ref (a : Nat)
  | link (scope id : String)
  | record (typ : String) (fields : List (String × GVal))
  | glist (xs : List GVal)
  | gdict (fs : List (String × GVal))

/-- A `BaseEntity`: type tag, scope-to-id mapping (`uids`), remaining fields. -/
structure Entity where
  typ : String
  uids : List (String × String)
  fields : List (String × GVal)

def defaultEntity : Entity := ⟨"", [], []⟩

/-- A registered class, as the decode dispatcher sees it: the class's own `typ`
attribute and whether it is a `BaseEntity` subclass (indexed by uid on decode). -/
structure Clazz where
  typ : String
  isEntity : Bool

abbrev Registry := List (String × Clazz)

def lookupClazz (r : Registry) (t : String) : Option Clazz :=
  match r.find? (fun p => p.1 == t) with
  | some p => some p.2
  | none => none

/-- Modelled from the spec: the reserved link type tag (`LinkByUID.typ`, §6). -/
def linkTag : String := "link_by_uid"

/-- The class index built by `GEMDJson.__init__` from the `_clazzes` list: each
class's `typ` tag mapped to the class.  Which classes are `BaseEntity` subclasses
(templates, specs, runs carry uids; attributes, bounds, values, file links and
sources do not) is part of the entity contract the spec leaves to the domain
model. -/
def gemdRegistry : Registry := [
  ("material_template", ⟨"material_template", true⟩),
  ("measurement_template", ⟨"measurement_template", true⟩),
  ("process_template", ⟨"process_template", true⟩),
  ("material_spec", ⟨"material_spec", true⟩),
  ("measurement_spec", ⟨"measurement_spec", true⟩),
  ("process_spec", ⟨"process_spec", true⟩),
  ("ingredient_spec", ⟨"ingredient_spec", true⟩),
  ("process_run", ⟨"process_run", true⟩),
  ("material_run", ⟨"material_run", true⟩),
  ("measurement_run", ⟨"measurement_run", true⟩),
  ("ingredient_run", ⟨"ingredient_run", true⟩),
  ("property", ⟨"property", false⟩),
  ("condition", ⟨"condition", false⟩),
  ("parameter", ⟨"parameter", false⟩),
  ("property_and_conditions", ⟨"property_and_conditions", false⟩),
  ("property_template", ⟨"property_template", true⟩),
  ("condition_template", ⟨"condition_template", true⟩),
  ("parameter_template", ⟨"parameter_template", true⟩),
  ("real_bounds", ⟨"real_bounds", false⟩),
  ("integer_bounds", ⟨"integer_bounds", false⟩),
  ("categorical_bounds", ⟨"categorical_bounds", false⟩),
  ("composition_bounds", ⟨"composition_bounds", false⟩),
  ("nominal_composition", ⟨"nominal_composition", false⟩),
  ("empirical_formula", ⟨"empirical_formula", false⟩),
  ("nominal_real", ⟨"nominal_real", false⟩),
  ("uniform_real", ⟨"uniform_real", false⟩),
  ("normal_real", ⟨"normal_real", false⟩),
  ("discrete_categorical", ⟨"discrete_categorical", false⟩),
  ("nominal_categorical", ⟨"nominal_categorical", false⟩),
  ("uniform_integer", ⟨"uniform_integer", false⟩),
  ("nominal_integer", ⟨"nominal_integer", false⟩),
  ("file_link", ⟨"file_link", false⟩),
  ("performed_source", ⟨"performed_source", false⟩)]

/-- ASCII lower-casing of one character (model of Python `str.lower` on scopes). -/
def lcChar (c : Char) : Char :=
  if 65 ≤ c.toNat ∧ c.toNat ≤ 90 then Char.ofNat (c.toNat + 32) else c

def lcStr (s : String) : String := String.mk (s.data.map lcChar)

/-- Code-point comparison of character sequences (model of Python string order). -/
def charsLt : List Char → List Char → Bool
  | [], [] => false
  | [], _ :: _ => true
  | _ :: _, [] => false
  | a :: as, b :: bs =>
    if a.toNat < b.toNat then true
    else if a.toNat = b.toNat then charsLt as bs
    else false

def strLt (a b : String) : Bool := charsLt a.data b.data

def typeKey : String := "type"

def uidsKey : String := "uids"

def scopeKey : String := "scope"

def idKey : String := "id"

def objectKey : String := "object"

def contextKey : String := "context"

def autoScope : String := "auto"

def lookupF {α : Type} (k : String) : List (String × α) → Option α
  | [] => none
  | (k', v) :: l => if k' = k then some v else lookupF k l

def eraseKey {α : Type} (k : String) : List (String × α) → List (String × α)
  | [] => []
  | (k', v) :: l => if k' = k then eraseKey k l else (k', v) :: eraseKey k l

def insKey {α : Type} (p : String × α) : List (String × α) → List (String × α)
  | [] => [p]
  | q :: l => if strLt p.1 q.1 then p :: q :: l else q :: insKey p l

/-- Sort an association list by key (model of `sort_keys=True`). -/
def sortKeys {α : Type} : List (String × α) → List (String × α)
  | [] => []
  | p :: l => insKey p (sortKeys l)

/-! ## Link substitution and encoding (spec §4.2 – §4.4) -/

/-- Link-substituted wire values: what `substitute_links` produces and the
`GEMDEncoder` consumes.  Modelled from the spec (§4.3, §4.4): expanded entities
(`went`), records, links, scalars and containers. -/
inductive WVal where
  | wnull
  | wbool (b : Bool)
  | wnum (n : Int)
  | wstr (s : String)
  | wlink (scope id : String)
  | went (typ : String) (uids : List (String × String)) (fields : List (String × WVal))
  | wrec (typ : String) (fields : List (String × WVal))
  | wlist (xs : List WVal)
  | wdict (fs : List (String × WVal))

def autoId (a : Nat) : String := String.mk ('a' :: 'u' :: 't' :: 'o' :: '-' :: natChars a)

/-- Modelled from the spec (§4.2): `set_uuids` (gemd.util) assigns, to every entity
with no uid at all, a fresh uid in the dedicated internal scope `"auto"` — "a fresh
random or monotonically-unique token"; the store address serves as the unique
token.  Entities that already have any uid are untouched. -/
def setUuidsFrom : Nat → List Entity → List Entity
  | _, [] => []
  | i, e :: rest =>
    (if e.uids = [] then { e with uids := [(autoScope, autoId i)] } else e) ::
      setUuidsFrom (i + 1) rest

def setUuids (S : List Entity) : List Entity := setUuidsFrom 0 S

mutual

/-- Direct entity references occurring in a value (not following the references). -/
def refsV : GVal → List Nat
  | .gnull => []
  | .gbool _ => []
  | .gnum _ => []
  | .gstr _ => []
  | .ref a => [a]
  | .link _ _ => []
  | .record _ fs => refsF fs
  | .glist xs => refsL xs
  | .gdict fs => refsF fs

def refsL : List GVal → List Nat
  | [] => []
  | x :: l => refsV x ++ refsL l

def refsF : List (String × GVal) → List Nat
  | [] => []
  | (_, v) :: l => refsV v ++ refsF l

end

def refsE (S : List Entity) (a : Nat) : List Nat := refsF (S.getD a defaultEntity).fields

/-- Addresses reachable from entity address `a` (including `a`), with fuel. -/
def reachClosure (S : List Entity) : Nat → Nat → List Nat
  | 0, _ => []
  | fuel + 1, a => a :: (refsE S a).flatMap (reachClosure S fuel)

/-- All entity addresses reachable from value `v` through entity references. -/
def reachList (S : List Entity) (v : GVal) : List Nat :=
  (refsV v).flatMap (reachClosure S S.length)

/-- Modelled from the spec (§4.2): the deduplicated set of context addresses built
by `flatten` — every reachable entity exactly once.  The traversal order is not
externally observable (§4.2); we list addresses in ascending order, which — under
the acyclicity discipline used here (references point to smaller addresses) — puts
every entity after the entities it references, as single-pass re-hydration
requires (§4.5). -/
def ctxAddrs (S : List Entity) (v : GVal) : List Nat :=
  (List.range S.length).filter (fun a => (reachList S v).contains a)

/-- Modelled from the spec (§4.3): the (scope, id) pair a substituted link is built
from — "pick deterministically, e.g. lexicographically smallest scope".  With uids
kept sorted by scope this is the head pair. -/
def linkOf (e : Entity) : WVal :=
  match e.uids with
  | [] => .wlink "" ""
  | (s, i) :: _ => .wlink s i

mutual

/-- Modelled from the spec (§4.3): substitution below the outermost value — every
entity reference becomes a `LinkByUID` link. -/
def substN (S : List Entity) : GVal → WVal
  | .gnull => .wnull
  | .gbool b => .wbool b
  | .gnum n => .wnum n
  | .gstr s => .wstr s
  | .ref a => linkOf (S.getD a defaultEntity)
  | .link sc i => .wlink sc i
  | .record t fs => .wrec t (substNF S fs)
  | .glist xs => .wlist (substNL S xs)
  | .gdict fs => .wdict (substNF S fs)

def substNL (S : List Entity) : List GVal → List WVal
  | [] => []
  | x :: l => substN S x :: substNL S l

def substNF (S : List Entity) : List (String × GVal) → List (String × WVal)
  | [] => []
  | (k, v) :: l => (k, substN S v) :: substNF S l

end

/-- Modelled from the spec (§4.3): `substitute_links` — "the outermost value passed
to substitute is never itself replaced by a link": an entity at the top is expanded
in full with its fields link-substituted; every other value is substituted
structurally, each entity reference strictly inside becoming a link. -/
def substTop (S : List Entity) (v : GVal) : WVal :=
  match v with
  | .ref a =>
    .went (S.getD a defaultEntity).typ (S.getD a defaultEntity).uids
      (substNF S (S.getD a defaultEntity).fields)
  | w => substN S w

/-- Modelled from the spec (§4.2): `flatten` — the deduplicated flat context of all
reachable entities, each as a link-substituted ("thin") copy.  Uid assignment
(`set_uuids`) is a separate prior step in this functional model. -/
def flatten (S : List Entity) (v : GVal) : List WVal :=
  (ctxAddrs S v).map (fun a => substTop S (.ref a))

mutual

/-- Modelled from the spec (§4.4, §6): the `GEMDEncoder` — every entity gains an
injected "type" tag and its "uids" mapping, records gain a "type" tag, links encode
as `scope`/`id`/`type` objects; object keys are emitted sorted
(`sort_keys=True`). -/
def encodeW : WVal → JVal
  | .wnull => .jnull
  | .wbool b => .jbool b
  | .wnum n => .jnum n
  | .wstr s => .jstr s
  | .wlink sc i => .jobj (sortKeys [(idKey, .jstr i), (scopeKey, .jstr sc), (typeKey, .jstr linkTag)])
  | .went t us fs =>
    .jobj (sortKeys ((typeKey, JVal.jstr t) ::
      (uidsKey, JVal.jobj (sortKeys (us.map (fun p => (p.1, JVal.jstr p.2))))) :: encodeF fs))
  | .wrec t fs => .jobj (sortKeys ((typeKey, JVal.jstr t) :: encodeF fs))
  | .wlist xs => .jarr (encodeL xs)
  | .wdict fs => .jobj (sortKeys (encodeF fs))

def encodeL : List WVal → List JVal
  | [] => []
  | x :: l => encodeW x :: encodeL l

def encodeF : List (String × WVal) → List (String × JVal)
  | [] => []
  | (k, v) :: l => (k, encodeW v) :: encodeF l

end

/-! ## Decoding (spec §4.5) and the `GEMDJson` API -/

/-- Decode failures: `unknownType` is the `TypeError` raised at
`gemd_json.py:289` for an unregistered (or non-string) tag; the other two model
`loads` failing outside the hook (unparseable text, missing envelope). -/
inductive DecErr where
  | unknownType (tag : GVal)
  | parseError
  | badEnvelope

/-- Call-local decoding state: the reconstructed entity store and the uid index
(`object_index`), newest entry first so that assignment overrides lookups. -/
structure DecSt where
  store : List Entity
  index : List ((String × String) × Nat)

def emptySt : DecSt := ⟨[], []⟩

def lookupIndex (ix : List ((String × String) × Nat)) (k : String × String) : Option Nat :=
  match ix.find? (fun p => p.1.1 == k.1 && p.1.2 == k.2) with
  | some p => some p.2
  | none => none

/-- Modelled from the spec (§6, entity contract): `from_fields` of a `BaseEntity`
class — pure construction from the parsed mapping, extracting the "uids" field; the
constructed object's tag is the class's own `typ`. -/
def entFromDict (c : Clazz) (d : List (String × GVal)) : Entity :=
  { typ := c.typ
    uids :=
      match lookupF uidsKey d with
      | some (.gdict ps) =>
        ps.foldr (fun p acc =>
          match p.2 with
          | .gstr s => (p.1, s) :: acc
          | _ => acc) []
      | _ => []
    fields := eraseKey uidsKey d }

def strOf (v : Option GVal) : String :=
  match v with
  | some (.gstr s) => s
  | _ => ""

/-- The object hook `GEMDJson._load_and_index` (gemd_json.py:265-294): a dict
without a "type" key passes through unchanged; a registered tag dispatches to the
class (entities are appended to the store and indexed under every lower-cased
(scope, id) pair — silently overwriting existing index entries); the link tag
builds a `LinkByUID`, substituted with the indexed entity when requested and
present; anything else raises `TypeError` (`unknownType`). -/
def loadAndIndex (reg : Registry) (substitute : Bool) (fs : List (String × GVal))
    (st : DecSt) : Except DecErr (GVal × DecSt) :=
  match lookupF typeKey fs with
  | none => .ok (.gdict fs, st)
  | some tv =>
    let d := eraseKey typeKey fs
    match tv with
    | .gstr t =>
      match lookupClazz reg t with
      | some c =>
        if c.isEntity then
          let e := entFromDict c d
          let a := st.store.length
          .ok (.ref a,
            { store := st.store ++ [e]
              index := e.uids.foldl (fun ix p => ((lcStr p.1, p.2), a) :: ix) st.index })
        else .ok (.record c.typ d, st)
      | none =>
        if t = linkTag then
          let sc := strOf (lookupF scopeKey d)
          let i := strOf (lookupF idKey d)
          match lookupIndex st.index (lcStr sc, i) with
          | some a => if substitute then .ok (.ref a, st) else .ok (.link sc i, st)
          | none => .ok (.link sc i, st)
        else .error (.unknownType (.gstr t))
    | _ => .error (.unknownType tv)

mutual

/-- Bottom-up decoding of a parsed JSON tree in document order, applying
`loadAndIndex` to every object — the model of `json.loads(s, object_hook=...)`. -/
def decodeJ (reg : Registry) (sub : Bool) : JVal → DecSt → Except DecErr (GVal × DecSt)
  | .jnull, st => .ok (.gnull, st)
  | .jbool b, st => .ok (.gbool b, st)
  | .jnum n, st => .ok (.gnum n, st)
  | .jstr s, st => .ok (.gstr s, st)
  | .jarr xs, st =>
    match decodeL reg sub xs st with
    | .ok (vs, st') => .ok (.glist vs, st')
    | .error e => .error e
  | .jobj fs, st =>
    match decodeF reg sub fs st with
    | .ok (gs, st') => loadAndIndex reg sub gs st'
    | .error e => .error e

def decodeL (reg : Registry) (sub : Bool) : List JVal → DecSt → Except DecErr (List GVal × DecSt)
  | [], st => .ok ([], st)
  | x :: l, st =>
    match decodeJ reg sub x st with
    | .ok (v, st') =>
      match decodeL reg sub l st' with
      | .ok (vs, st'') => .ok (v :: vs, st'')
      | .error e => .error e
    | .error e => .error e

def decodeF (reg : Registry) (sub : Bool) :
    List (String × JVal) → DecSt → Except DecErr (List (String × GVal) × DecSt)
  | [], st => .ok ([], st)
  | (k, x) :: l, st =>
    match decodeJ reg sub x st with
    | .ok (v, st') =>
      match decodeF reg sub l st' with
      | .ok (gs, st'') => .ok ((k, v) :: gs, st'')
      | .error e => .error e
    | .error e => .error e

end

/-- `GEMDJson.dumps` (gemd_json.py:70-92): wrap the object in an envelope dict,
flatten the envelope to collect the context, substitute links throughout, attach
the context, serialize with sorted keys.  The uid-assigned store is returned too:
in Python `flatten` mutates the input entities via `set_uuids`. -/
def dumps (S : List Entity) (obj : GVal) : String × List Entity :=
  let S' := setUuids S
  let res := GVal.gdict [(objectKey, obj)]
  let additional := flatten S' res
  let subd := substTop S' res
  let envl :=
    match subd with
    | .wdict fs => WVal.wdict (fs ++ [(contextKey, .wlist additional)])
    | w => w
  (jprint (encodeW envl), S')

/-- `GEMDJson.loads` (gemd_json.py:94-118): parse with the indexing hook (link
substitution on), then return the envelope's "object" member.  The decoded store is
returned alongside so that reference identity is observable in the model. -/
def loads (reg : Registry) (s : String) : Except DecErr (GVal × List Entity) :=
  match jparse s with
  | none => .error .parseError
  | some j =>
    match decodeJ reg true j emptySt with
    | .ok (v, st) =>
      match v with
      | .gdict fs =>
        match lookupF objectKey fs with
        | some o => .ok (o, st.store)
        | none => .error .badEnvelope
      | _ => .error .badEnvelope
    | .error e => .error e

/-- `GEMDJson.load` (gemd_json.py:120-137): read a file and `loads` its contents;
the file is modelled by the string it contains. -/
def load (reg : Registry) (fileContents : String) : Except DecErr (GVal × List Entity) :=
  loads reg fileContents

/-- `GEMDJson.raw_loads` (gemd_json.py:217-238): parse with the indexing hook but
no link substitution and no envelope. -/
def rawLoads (reg : Registry) (s : String) : Except DecErr (GVal × List Entity) :=
  match jparse s with
  | none => .error .parseError
  | some j =>
    match decodeJ reg false j emptySt with
    | .ok (v, st) => .ok (v, st.store)
    | .error e => .error e

/-- `GEMDJson.thin_dumps` (gemd_json.py:196-215): `set_uuids` on the object, then
`substitute_links` on the object itself (expanding it, linking what it references),
then serialize; no flattening, no context. -/
def thinDumps (S : List Entity) (obj : GVal) : String × List Entity :=
  let S' := setUuids S
  (jprint (encodeW (substTop S' obj)), S')

/-! ## `register_classes` (gemd_json.py:240-263) -/

/-- A Python value as far as `register_classes` inspects one: a string, a class, or
something else. -/
inductive PyVal where
  | pstr (s : String)
  | pclazz (c : Clazz)
  | pother (n : Nat)

/-- The argument of `register_classes`: a dict (as its key/value pairs) or any
non-dict value. -/
inductive RegArg where
  | notDict (v : PyVal)
  | asDict (entries : List (PyVal × PyVal))

/-- The `ValueError` raised by `register_classes` on invalid input. -/
inductive RegErr where
  | invalidRegistration

def isStr : PyVal → Bool
  | .pstr _ => true
  | _ => false

def isClazzVal : PyVal → Bool
  | .pclazz _ => true
  | _ => false

def strValOf : PyVal → String
  | .pstr s => s
  | _ => ""

def clazzValOf : PyVal → Clazz
  | .pclazz c => c
  | _ => ⟨"", false⟩

/-- Python `dict.update`: existing keys are overridden in place, new keys are
appended in iteration order. -/
def setReg (r : Registry) (k : String) (c : Clazz) : Registry :=
  if r.any (fun p => p.1 == k) then r.map (fun p => if p.1 == k then (k, c) else p)
  else r ++ [(k, c)]

def updateReg (r : Registry) (kvs : List (String × Clazz)) : Registry :=
  kvs.foldl (fun acc p => setReg acc p.1 p.2) r

/-- `GEMDJson.register_classes`: reject a non-dict argument, then non-string keys,
then non-class values (each with `ValueError`); only after all checks update the
class index.  Modelled as state passing: the returned registry is the method's
`self._clazz_index` after the call. -/
def registerClasses (r : Registry) (arg : RegArg) : Registry × Option RegErr :=
  match arg with
  | .notDict _ => (r, some .invalidRegistration)
  | .asDict entries =>
    if (entries.filter (fun p => !isStr p.1)).length > 0 then (r, some .invalidRegistration)
    else if (entries.filter (fun p => !isClazzVal p.2)).length > 0 then
      (r, some .invalidRegistration)
    else (updateReg r (entries.map (fun p => (strValOf p.1, clazzValOf p.2))), none)

/-! ## Size measure and induction principle for `GVal` -/

mutual

def gsizeV : GVal → Nat
  | .gnull => 1
  | .gbool _ => 1
  | .gnum _ => 1
  | .gstr _ => 1
  | .ref _ => 1
  | .link _ _ => 1
  | .record _ fs => gsizeF fs + 1
  | .glist xs => gsizeL xs + 1
  | .gdict fs => gsizeF fs + 1

def gsizeL : List GVal → Nat
  | [] => 0
  | x :: l => gsizeV x + gsizeL l + 1

def gsizeF : List (String × GVal) → Nat
  | [] => 0
  | (_, v) :: l => gsizeV v + gsizeF l + 1

end

theorem gsizeV_pos (v : GVal) : 1 ≤ gsizeV v := by
  cases v <;> simp [gsizeV]

/-- Simultaneous induction over graph values, element lists and field lists. -/
theorem gval_triple_ind (PV : GVal → Prop) (PL : List GVal → Prop)
    (PF : List (String × GVal) → Prop)
    (hnull : PV .gnull) (hbool : ∀ b, PV (.gbool b)) (hnum : ∀ n, PV (.gnum n))
    (hstr : ∀ s, PV (.gstr s)) (href : ∀ a, PV (.ref a))
    (hlink : ∀ sc i, PV (.link sc i))
    (hrec : ∀ t fs, PF fs → PV (.record t fs))
    (hlist : ∀ xs, PL xs → PV (.glist xs)) (hdict : ∀ fs, PF fs → PV (.gdict fs))
    (hLnil : PL []) (hLcons : ∀ x l, PV x → PL l → PL (x :: l))
    (hFnil : PF []) (hFcons : ∀ k v l, PV v → PF l → PF ((k, v) :: l)) :
    (∀ v, PV v) ∧ (∀ l, PL l) ∧ (∀ l, PF l) := by
  have key : ∀ k, (∀ v, gsizeV v ≤ k → PV v) ∧ (∀ l, gsizeL l ≤ k → PL l) ∧
      (∀ l, gsizeF l ≤ k → PF l) := by
    intro k
    induction k with
    | zero =>
      refine ⟨fun v hv => absurd (gsizeV_pos v) (by omega), fun l hl => ?_, fun l hl => ?_⟩
      · cases l with
        | nil => exact hLnil
        | cons x t => simp [gsizeL] at hl
      · cases l with
        | nil => exact hFnil
        | cons p t => obtain ⟨a, b⟩ := p; simp [gsizeF] at hl
    | succ k ih =>
      obtain ⟨iV, iL, iF⟩ := ih
      refine ⟨fun v hv => ?_, fun l hl => ?_, fun l hl => ?_⟩
      · cases v with
        | gnull => exact hnull
        | gbool b => exact hbool b
        | gnum n => exact hnum n
        | gstr s => exact hstr s
        | ref a => exact href a
        | link sc i => exact hlink sc i
        | record t fs => exact hrec t fs (iF fs (by simp [gsizeV] at hv; omega))
        | glist xs => exact hlist xs (iL xs (by simp [gsizeV] at hv; omega))
        | gdict fs => exact hdict fs (iF fs (by simp [gsizeV] at hv; omega))
      · cases l with
        | nil => exact hLnil
        | cons x t =>
          simp [gsizeL] at hl
          exact hLcons x t (iV x (by omega)) (iL t (by omega))
      · cases l with
        | nil => exact hFnil
        | cons p t =>
          obtain ⟨a, v⟩ := p
          simp [gsizeF] at hl
          exact hFcons a v t (iV v (by omega)) (iF t (by omega))
  exact ⟨fun v => (key (gsizeV v)).1 v le_rfl, fun l => (key (gsizeL l)).2.1 l le_rfl,
    fun l => (key (gsizeF l)).2.2 l le_rfl⟩

/-! ## Reference renaming (graph isomorphism up to store addresses) -/

mutual

/-- Rename every entity reference through `φ`: the shape-preserving embedding of a
graph value into the store built by a decode call. -/
def mapRefs (φ : Nat → Nat) : GVal → GVal
  | .gnull => .gnull
  | .gbool b => .gbool b
  | .gnum n => .gnum n
  | .gstr s => .gstr s
  | .ref a => .ref (φ a)
  | .link sc i => .link sc i
  | .record t fs => .record t (mapRefsF φ fs)
  | .glist xs => .glist (mapRefsL φ xs)
  | .gdict fs => .gdict (mapRefsF φ fs)

def mapRefsL (φ : Nat → Nat) : List GVal → List GVal
  | [] => []
  | x :: l => mapRefs φ x :: mapRefsL φ l

def mapRefsF (φ : Nat → Nat) : List (String × GVal) → List (String × GVal)
  | [] => []
  | (k, v) :: l => (k, mapRefs φ v) :: mapRefsF φ l

end

mutual

/-- All `LinkByUID` tokens occurring in a value. -/
def linksV : GVal → List (String × String)
  | .gnull => []
  | .gbool _ => []
  | .gnum _ => []
  | .gstr _ => []
  | .ref _ => []
  | .link sc i => [(sc, i)]
  | .record _ fs => linksF fs
  | .glist xs => linksL xs
  | .gdict fs => linksF fs

def linksL : List GVal → List (String × String)
  | [] => []
  | x :: l => linksV x ++ linksL l

def linksF : List (String × GVal) → List (String × String)
  | [] => []
  | (_, v) :: l => linksV v ++ linksF l

end

/-! ## Well-formedness checker for dumpable graphs -/

def keysOf {α : Type} (l : List (String × α)) : List String := l.map Prod.fst

/-- Keys strictly ascending in code-point order: the canonical layout of a mapping
once serialized with sorted keys. -/
def sortedKeysb {α : Type} : List (String × α) → Bool
  | [] => true
  | [_] => true
  | p :: q :: l => strLt p.1 q.1 && sortedKeysb (q :: l)

/-- The lower-cased (scope, id) pairs of one entity: its index keys on decode. -/
def entKeys (e : Entity) : List (String × String) := e.uids.map (fun p => (lcStr p.1, p.2))

/-- All index keys of a store. -/
def uidKeys (S : List Entity) : List (String × String) := S.flatMap entKeys

def clazzRecOKb (reg : Registry) (t : String) : Bool :=
  match lookupClazz reg t with
  | some c => !c.isEntity && c.typ == t
  | none => false

mutual

/-- Well-formed graph value: references point below the bound `b` (the acyclicity
discipline), record tags resolve to non-entity classes returning their own tag,
mapping keys are strictly sorted, plain mappings and records carry no "type" key,
and explicit links do not collide with any entity's index key (`keys`). -/
def valOKb (reg : Registry) (keys : List (String × String)) (b : Nat) : GVal → Bool
  | .gnull => true
  | .gbool _ => true
  | .gnum _ => true
  | .gstr _ => true
  | .ref a => decide (a < b)
  | .link sc i => !(keys.contains (lcStr sc, i))
  | .record t fs =>
    clazzRecOKb reg t && sortedKeysb fs && fs.all (fun p => p.1 != typeKey) &&
      valOKbF reg keys b fs
  | .glist xs => valOKbL reg keys b xs
  | .gdict fs => sortedKeysb fs && fs.all (fun p => p.1 != typeKey) && valOKbF reg keys b fs

def valOKbL (reg : Registry) (keys : List (String × String)) (b : Nat) : List GVal → Bool
  | [] => true
  | x :: l => valOKb reg keys b x && valOKbL reg keys b l

def valOKbF (reg : Registry) (keys : List (String × String)) (b : Nat) :
    List (String × GVal) → Bool
  | [] => true
  | (_, v) :: l => valOKb reg keys b v && valOKbF reg keys b l

end

/-- Well-formed entity at store address `a`: a registered entity class returning its
own tag, sorted uids whose scopes are not "type", sorted fields avoiding the
injected "type"/"uids" keys, and well-formed field values referencing only
lower addresses. -/
def entOKb (reg : Registry) (keys : List (String × String)) (a : Nat) (e : Entity) : Bool :=
  (match lookupClazz reg e.typ with
   | some c => c.isEntity && c.typ == e.typ
   | none => false) &&
  sortedKeysb e.uids &&
  e.uids.all (fun p => p.1 != typeKey) &&
  sortedKeysb e.fields &&
  e.fields.all (fun p => p.1 != typeKey && p.1 != uidsKey) &&
  valOKbF reg keys a e.fields

def keysDisjointb (k1 k2 : List (String × String)) : Bool :=
  k1.all (fun k => !(k2.contains k))

/-- Distinct entities claim no common lower-cased (scope, id) pair. -/
def uidsDistinctb (S : List Entity) : Bool :=
  (List.range S.length).all (fun a => (List.range S.length).all (fun b =>
    a == b || keysDisjointb (entKeys (S.getD a defaultEntity)) (entKeys (S.getD b defaultEntity))))

/-- Well-formedness of a graph for the round-trip theorem, checked on the
uid-assigned store `setUuids S`: the registry does not claim the link tag, every
entity is well-formed with references below its own address, entity index keys are
pairwise disjoint, and the root value is well-formed. -/
def dumpsOKb (reg : Registry) (S : List Entity) (g : GVal) : Bool :=
  let S' := setUuids S
  let keys := uidKeys S'
  (lookupClazz reg linkTag).isNone &&
  (List.range S'.length).all (fun a => entOKb reg keys a (S'.getD a defaultEntity)) &&
  uidsDistinctb S' &&
  valOKb reg keys S'.length g

/-! ## Association-list lemmas -/

theorem keysOf_cons {α : Type} (k' : String) (v : α) (t : List (String × α)) :
    keysOf ((k', v) :: t) = k' :: keysOf t := rfl

theorem not_mem_keys_cons {α : Type} {k k' : String} {v : α} {t : List (String × α)}
    (h : k ∉ keysOf ((k', v) :: t)) : k ≠ k' ∧ k ∉ keysOf t := by
  rw [keysOf_cons] at h
  simp only [List.mem_cons, not_or] at h
  exact h

theorem lookupF_none_of_not_mem {α : Type} (k : String) (l : List (String × α))
    (h : k ∉ keysOf l) : lookupF k l = none := by
  induction l with
  | nil => rfl
  | cons p t ih =>
    obtain ⟨k', v⟩ := p
    obtain ⟨hne, hmem⟩ := not_mem_keys_cons h
    simp only [lookupF]
    rw [if_neg (fun hh => hne hh.symm), ih hmem]

theorem eraseKey_of_not_mem {α : Type} (k : String) (l : List (String × α))
    (h : k ∉ keysOf l) : eraseKey k l = l := by
  induction l with
  | nil => rfl
  | cons p t ih =>
    obtain ⟨k', v⟩ := p
    obtain ⟨hne, hmem⟩ := not_mem_keys_cons h
    simp only [eraseKey]
    rw [if_neg (fun hh => hne hh.symm), ih hmem]

theorem lookupF_insKey_self {α : Type} (k : String) (x : α) (l : List (String × α))
    (h : k ∉ keysOf l) : lookupF k (insKey (k, x) l) = some x := by
  induction l with
  | nil => simp [insKey, lookupF]
  | cons q t ih =>
    obtain ⟨k2, v⟩ := q
    obtain ⟨hne, hmem⟩ := not_mem_keys_cons h
    by_cases hlt : strLt k k2 = true
    · simp only [insKey, if_pos hlt, lookupF]
      simp
    · simp only [insKey]
      rw [if_neg hlt]
      simp only [lookupF]
      rw [if_neg hne.symm, ih hmem]

theorem lookupF_insKey_other {α : Type} (k k' : String) (x : α) (l : List (String × α))
    (h : k' ≠ k) : lookupF k' (insKey (k, x) l) = lookupF k' l := by
  induction l with
  | nil =>
    simp only [insKey, lookupF]
    rw [if_neg (fun hh => h hh.symm)]
  | cons q t ih =>
    obtain ⟨k2, v⟩ := q
    by_cases hlt : strLt k k2 = true
    · simp only [insKey, if_pos hlt, lookupF]
      rw [if_neg (fun hh => h hh.symm)]
    · simp only [insKey]
      rw [if_neg hlt]
      simp only [lookupF]
      by_cases h2 : k2 = k'
      · rw [if_pos h2, if_pos h2]
      · rw [if_neg h2, if_neg h2, ih]

theorem eraseKey_insKey {α : Type} (k : String) (x : α) (l : List (String × α))
    (h : k ∉ keysOf l) : eraseKey k (insKey (k, x) l) = l := by
  induction l with
  | nil => simp [insKey, eraseKey]
  | cons q t ih =>
    obtain ⟨k2, v⟩ := q
    obtain ⟨hne, hmem⟩ := not_mem_keys_cons h
    by_cases hlt : strLt k k2 = true
    · simp only [insKey, if_pos hlt, eraseKey]
      simp only [if_true]
      rw [if_neg hne.symm, eraseKey_of_not_mem k t hmem]
    · simp only [insKey]
      rw [if_neg hlt]
      simp only [eraseKey]
      rw [if_neg hne.symm, ih hmem]

theorem not_mem_keys_insKey {α : Type} (k k' : String) (x : α) (l : List (String × α))
    (h : k' ∉ keysOf l) (hne : k' ≠ k) : k' ∉ keysOf (insKey (k, x) l) := by
  induction l with
  | nil =>
    simp [insKey, keysOf]
    exact hne
  | cons q t ih =>
    obtain ⟨k2, v⟩ := q
    obtain ⟨hne2, hmem⟩ := not_mem_keys_cons h
    by_cases hlt : strLt k k2 = true
    · simp only [insKey, if_pos hlt, keysOf_cons]
      simp only [List.mem_cons, not_or]
      refine ⟨hne, hne2, ?_⟩
      simpa [keysOf] using hmem
    · simp only [insKey]
      rw [if_neg hlt]
      simp only [keysOf_cons, List.mem_cons, not_or]
      exact ⟨hne2, ih hmem⟩

theorem sortKeys_id {α : Type} (l : List (String × α)) (h : sortedKeysb l = true) :
    sortKeys l = l := by
  induction l with
  | nil => rfl
  | cons p t ih =>
    cases t with
    | nil => simp [sortKeys, insKey]
    | cons q t' =>
      simp only [sortedKeysb, Bool.and_eq_true] at h
      have ht : sortKeys (q :: t') = q :: t' := ih h.2
      simp only [sortKeys] at ht ⊢
      rw [ht]
      obtain ⟨k1, v1⟩ := p
      obtain ⟨k2, v2⟩ := q
      simp [insKey, h.1]

/-! ## Key preservation under substitution, encoding and renaming -/

theorem keysOf_substNF (S : List Entity) (fs : List (String × GVal)) :
    keysOf (substNF S fs) = keysOf fs := by
  induction fs with
  | nil => rfl
  | cons p l ih =>
    obtain ⟨k, v⟩ := p
    simp [substNF, keysOf_cons, ih]

theorem keysOf_encodeF (fs : List (String × WVal)) :
    keysOf (encodeF fs) = keysOf fs := by
  induction fs with
  | nil => rfl
  | cons p l ih =>
    obtain ⟨k, v⟩ := p
    simp [encodeF, keysOf_cons, ih]

theorem keysOf_mapRefsF (φ : Nat → Nat) (fs : List (String × GVal)) :
    keysOf (mapRefsF φ fs) = keysOf fs := by
  induction fs with
  | nil => rfl
  | cons p l ih =>
    obtain ⟨k, v⟩ := p
    simp [mapRefsF, keysOf_cons, ih]

def sortedStrb : List String → Bool
  | [] => true
  | [_] => true
  | a :: b :: l => strLt a b && sortedStrb (b :: l)

theorem sortedKeysb_eq_keys {α : Type} (l : List (String × α)) :
    sortedKeysb l = sortedStrb (keysOf l) := by
  induction l with
  | nil => rfl
  | cons p t ih =>
    obtain ⟨k, v⟩ := p
    cases t with
    | nil => rfl
    | cons q t' =>
      obtain ⟨k2, v2⟩ := q
      simp [sortedKeysb, sortedStrb, keysOf, ih]

theorem sortedKeysb_of_keys {α β : Type} (l1 : List (String × α)) (l2 : List (String × β))
    (h : keysOf l1 = keysOf l2) (hs : sortedKeysb l2 = true) : sortedKeysb l1 = true := by
  rw [sortedKeysb_eq_keys, h, ← sortedKeysb_eq_keys]
  exact hs

/-! ## Unfolding equations for the decoder -/

theorem decodeJ_null (reg : Registry) (sub : Bool) (st : DecSt) :
    decodeJ reg sub .jnull st = .ok (.gnull, st) := rfl

theorem decodeJ_obj (reg : Registry) (sub : Bool) (fs : List (String × JVal)) (st : DecSt) :
    decodeJ reg sub (.jobj fs) st =
      (match decodeF reg sub fs st with
       | .ok (gs, st') => loadAndIndex reg sub gs st'
       | .error e => .error e) := rfl

theorem decodeJ_arr (reg : Registry) (sub : Bool) (xs : List JVal) (st : DecSt) :
    decodeJ reg sub (.jarr xs) st =
      (match decodeL reg sub xs st with
       | .ok (vs, st') => .ok (.glist vs, st')
       | .error e => .error e) := rfl

theorem decodeL_nil (reg : Registry) (sub : Bool) (st : DecSt) :
    decodeL reg sub [] st = .ok ([], st) := rfl

theorem decodeL_cons (reg : Registry) (sub : Bool) (x : JVal) (l : List JVal) (st : DecSt) :
    decodeL reg sub (x :: l) st =
      (match decodeJ reg sub x st with
       | .ok (v, st') =>
         match decodeL reg sub l st' with
         | .ok (vs, st'') => .ok (v :: vs, st'')
         | .error e => .error e
       | .error e => .error e) := rfl

theorem decodeF_nil (reg : Registry) (sub : Bool) (st : DecSt) :
    decodeF reg sub [] st = .ok ([], st) := rfl

theorem decodeF_cons (reg : Registry) (sub : Bool) (k : String) (x : JVal)
    (l : List (String × JVal)) (st : DecSt) :
    decodeF reg sub ((k, x) :: l) st =
      (match decodeJ reg sub x st with
       | .ok (v, st') =>
         match decodeF reg sub l st' with
         | .ok (gs, st'') => .ok ((k, v) :: gs, st'')
         | .error e => .error e
       | .error e => .error e) := rfl

/-! ## Case lemmas for the object hook -/

theorem loadAndIndex_noType (reg : Registry) (sub : Bool) (fs : List (String × GVal))
    (st : DecSt) (h : lookupF typeKey fs = none) :
    loadAndIndex reg sub fs st = .ok (.gdict fs, st) := by
  simp only [loadAndIndex, h]

theorem loadAndIndex_link (reg : Registry) (sub : Bool) (fs : List (String × GVal))
    (st : DecSt) (h : lookupF typeKey fs = some (.gstr linkTag))
    (hreg : lookupClazz reg linkTag = none) :
    loadAndIndex reg sub fs st =
      (match lookupIndex st.index
          (lcStr (strOf (lookupF scopeKey (eraseKey typeKey fs))),
            strOf (lookupF idKey (eraseKey typeKey fs))) with
       | some a =>
         if sub then .ok (.ref a, st)
         else .ok (.link (strOf (lookupF scopeKey (eraseKey typeKey fs)))
           (strOf (lookupF idKey (eraseKey typeKey fs))), st)
       | none => .ok (.link (strOf (lookupF scopeKey (eraseKey typeKey fs)))
           (strOf (lookupF idKey (eraseKey typeKey fs))), st)) := by
  simp only [loadAndIndex, h, hreg]
  simp

theorem loadAndIndex_clazz (reg : Registry) (sub : Bool) (fs : List (String × GVal))
    (st : DecSt) (t : String) (c : Clazz) (h : lookupF typeKey fs = some (.gstr t))
    (hc : lookupClazz reg t = some c) :
    loadAndIndex reg sub fs st =
      (if c.isEntity then
        .ok (.ref st.store.length,
          { store := st.store ++ [entFromDict c (eraseKey typeKey fs)]
            index := (entFromDict c (eraseKey typeKey fs)).uids.foldl
              (fun ix p => ((lcStr p.1, p.2), st.store.length) :: ix) st.index })
      else .ok (.record c.typ (eraseKey typeKey fs), st)) := by
  simp only [loadAndIndex, h, hc]

theorem loadAndIndex_unknown (reg : Registry) (sub : Bool) (fs : List (String × GVal))
    (st : DecSt) (t : String) (h : lookupF typeKey fs = some (.gstr t))
    (hc : lookupClazz reg t = none) (hlink : t ≠ linkTag) :
    loadAndIndex reg sub fs st = .error (.unknownType (.gstr t)) := by
  simp only [loadAndIndex, h, hc]
  simp [hlink]

theorem loadAndIndex_badTag (reg : Registry) (sub : Bool) (fs : List (String × GVal))
    (st : DecSt) (tv : GVal) (h : lookupF typeKey fs = some tv)
    (hnotstr : ∀ s, tv ≠ .gstr s) :
    loadAndIndex reg sub fs st = .error (.unknownType tv) := by
  simp only [loadAndIndex, h]

/-! ## Stateless decoding of field and element lists -/

/-- Pointwise stateless decoding of a field list at a fixed decode state. -/
inductive SlessF (reg : Registry) (sub : Bool) (st : DecSt) :
    List (String × JVal) → List (String × GVal) → Prop
  | nil : SlessF reg sub st [] []
  | cons {k : String} {x : JVal} {gx : GVal} {l : List (String × JVal)}
      {gl : List (String × GVal)} :
      decodeJ reg sub x st = .ok (gx, st) → SlessF reg sub st l gl →
      SlessF reg sub st ((k, x) :: l) ((k, gx) :: gl)

/-- Pointwise stateless decoding of an element list at a fixed decode state. -/
inductive SlessL (reg : Registry) (sub : Bool) (st : DecSt) :
    List JVal → List GVal → Prop
  | nil : SlessL reg sub st [] []
  | cons {x : JVal} {gx : GVal} {l : List JVal} {gl : List GVal} :
      decodeJ reg sub x st = .ok (gx, st) → SlessL reg sub st l gl →
      SlessL reg sub st (x :: l) (gx :: gl)

theorem SlessF.decodeF_eq {reg : Registry} {sub : Bool} {st : DecSt}
    {l : List (String × JVal)} {gl : List (String × GVal)} (h : SlessF reg sub st l gl) :
    decodeF reg sub l st = .ok (gl, st) := by
  induction h with
  | nil => rfl
  | cons hx _ ih => simp only [decodeF_cons, hx, ih]

theorem SlessL.decodeL_eq {reg : Registry} {sub : Bool} {st : DecSt}
    {l : List JVal} {gl : List GVal} (h : SlessL reg sub st l gl) :
    decodeL reg sub l st = .ok (gl, st) := by
  induction h with
  | nil => rfl
  | cons hx _ ih => simp only [decodeL_cons, hx, ih]

theorem SlessF.keys_eq {reg : Registry} {sub : Bool} {st : DecSt}
    {l : List (String × JVal)} {gl : List (String × GVal)} (h : SlessF reg sub st l gl) :
    keysOf gl = keysOf l := by
  induction h with
  | nil => rfl
  | cons _ _ ih => simp [keysOf_cons, ih]

theorem slessF_insKey {reg : Registry} {sub : Bool} {st : DecSt} {k : String} {x : JVal}
    {gx : GVal} {l : List (String × JVal)} {gl : List (String × GVal)}
    (hl : SlessF reg sub st l gl) (hx : decodeJ reg sub x st = .ok (gx, st)) :
    SlessF reg sub st (insKey (k, x) l) (insKey (k, gx) gl) := by
  induction hl with
  | nil => exact .cons hx .nil
  | @cons k1 x1 gx1 l1 gl1 h1 hrest ih =>
    by_cases hlt : strLt k k1 = true
    · simp only [insKey, if_pos hlt]
      exact .cons hx (.cons h1 hrest)
    · simp only [insKey, if_neg hlt]
      exact .cons h1 ih

/-! ## Decoding substituted values -/

def headUid (e : Entity) : String × String :=
  match e.uids with
  | [] => ("", "")
  | p :: _ => p

/-- The (lower-cased scope, id) index key under which a substituted reference to
entity `a` resolves. -/
def linkKey (S : List Entity) (a : Nat) : String × String :=
  (lcStr (headUid (S.getD a defaultEntity)).1, (headUid (S.getD a defaultEntity)).2)

theorem linkOf_eq (e : Entity) (h : e.uids ≠ []) :
    linkOf e = .wlink (headUid e).1 (headUid e).2 := by
  cases hu : e.uids with
  | nil => exact absurd hu h
  | cons p t => simp [linkOf, headUid, hu]

theorem not_mem_keys_of_all {α : Type} (k : String) (l : List (String × α))
    (h : l.all (fun p => p.1 != k) = true) : k ∉ keysOf l := by
  induction l with
  | nil => simp [keysOf]
  | cons p t ih =>
    obtain ⟨k', v⟩ := p
    simp only [List.all_cons, Bool.and_eq_true, bne_iff_ne] at h
    rw [keysOf_cons]
    simp only [List.mem_cons, not_or]
    exact ⟨fun hh => h.1 hh.symm, ih h.2⟩

theorem decode_linkObj (reg : Registry) (sub : Bool) (sc i : String) (st : DecSt)
    (hreg : lookupClazz reg linkTag = none) :
    decodeJ reg sub (encodeW (.wlink sc i)) st =
      (match lookupIndex st.index (lcStr sc, i) with
       | some a => if sub then .ok (.ref a, st) else .ok (.link sc i, st)
       | none => .ok (.link sc i, st)) := by
  have h1 : encodeW (.wlink sc i) =
      .jobj [(idKey, .jstr i), (scopeKey, .jstr sc), (typeKey, .jstr linkTag)] := rfl
  rw [h1, decodeJ_obj]
  have h2 : decodeF reg sub
      [(idKey, .jstr i), (scopeKey, .jstr sc), (typeKey, .jstr linkTag)] st
      = .ok ([(idKey, .gstr i), (scopeKey, .gstr sc), (typeKey, .gstr linkTag)], st) := rfl
  rw [h2]
  show loadAndIndex reg sub
    [(idKey, GVal.gstr i), (scopeKey, GVal.gstr sc), (typeKey, GVal.gstr linkTag)] st = _
  rw [loadAndIndex_link reg sub
    [(idKey, GVal.gstr i), (scopeKey, GVal.gstr sc), (typeKey, GVal.gstr linkTag)] st rfl hreg]
  rfl

theorem decode_uidsObj (reg : Registry) (sub : Bool) (st : DecSt)
    (us : List (String × String)) (hscope : ∀ p ∈ us, p.1 ≠ typeKey) :
    decodeJ reg sub (.jobj (us.map (fun p => (p.1, JVal.jstr p.2)))) st =
      .ok (.gdict (us.map (fun p => (p.1, GVal.gstr p.2))), st) := by
  rw [decodeJ_obj]
  have hdec : ∀ us' : List (String × String),
      decodeF reg sub (us'.map (fun p => (p.1, JVal.jstr p.2))) st =
      .ok (us'.map (fun p => (p.1, GVal.gstr p.2)), st) := by
    intro us'
    induction us' with
    | nil => rfl
    | cons p t ih =>
      obtain ⟨sc, i⟩ := p
      simp only [List.map_cons, decodeF_cons,
        show decodeJ reg sub (.jstr i) st = .ok (.gstr i, st) from rfl, ih]
  rw [hdec us]
  show loadAndIndex reg sub (us.map (fun p => (p.1, GVal.gstr p.2))) st = _
  rw [loadAndIndex_noType]
  apply lookupF_none_of_not_mem
  intro hmem
  have : keysOf (us.map (fun p => (p.1, GVal.gstr p.2))) = us.map Prod.fst := by
    induction us with
    | nil => rfl
    | cons p t ih => simp [keysOf, ih]
  rw [this] at hmem
  simp only [List.mem_map] at hmem
  obtain ⟨p, hp, hkey⟩ := hmem
  exact hscope p hp hkey

theorem uids_extract (us : List (String × String)) :
    (us.map (fun p => (p.1, GVal.gstr p.2))).foldr (fun p acc =>
      match p.2 with
      | .gstr s => (p.1, s) :: acc
      | _ => acc) [] = us := by
  induction us with
  | nil => rfl
  | cons p t ih => simp [ih]

theorem entFromDict_insert (c : Clazz) (us : List (String × String))
    (gl : List (String × GVal)) (huids : uidsKey ∉ keysOf gl) :
    entFromDict c (insKey (uidsKey, .gdict (us.map (fun p => (p.1, GVal.gstr p.2)))) gl) =
      ⟨c.typ, us, gl⟩ := by
  simp only [entFromDict, lookupF_insKey_self _ _ _ huids, eraseKey_insKey _ _ _ huids]
  rw [uids_extract]

/-- Decoding the encoding of a link-substituted well-formed value is stateless and
returns the original value with every entity reference renamed through `φ`:
substituted links resolve against the index (`hres`), pre-existing dangling links
miss it (`hdangle`). -/
theorem decode_substN (reg : Registry) (S' : List Entity) (keys : List (String × String))
    (n : Nat) (φ : Nat → Nat) (hreg : lookupClazz reg linkTag = none) :
    (∀ v, ∀ st : DecSt, valOKb reg keys n v = true →
      (∀ a ∈ refsV v, (S'.getD a defaultEntity).uids ≠ []) →
      (∀ a ∈ refsV v, lookupIndex st.index (linkKey S' a) = some (φ a)) →
      (∀ p ∈ linksV v, lookupIndex st.index (lcStr p.1, p.2) = none) →
      decodeJ reg true (encodeW (substN S' v)) st = .ok (mapRefs φ v, st)) ∧
    (∀ xs, ∀ st : DecSt, valOKbL reg keys n xs = true →
      (∀ a ∈ refsL xs, (S'.getD a defaultEntity).uids ≠ []) →
      (∀ a ∈ refsL xs, lookupIndex st.index (linkKey S' a) = some (φ a)) →
      (∀ p ∈ linksL xs, lookupIndex st.index (lcStr p.1, p.2) = none) →
      SlessL reg true st (encodeL (substNL S' xs)) (mapRefsL φ xs)) ∧
    (∀ fs, ∀ st : DecSt, valOKbF reg keys n fs = true →
      (∀ a ∈ refsF fs, (S'.getD a defaultEntity).uids ≠ []) →
      (∀ a ∈ refsF fs, lookupIndex st.index (linkKey S' a) = some (φ a)) →
      (∀ p ∈ linksF fs, lookupIndex st.index (lcStr p.1, p.2) = none) →
      SlessF reg true st (encodeF (substNF S' fs)) (mapRefsF φ fs)) := by
  refine gval_triple_ind _ _ _ ?_ ?_ ?_ ?_ ?_ ?_ ?_ ?_ ?_ ?_ ?_ ?_ ?_
  · intro st _ _ _ _
    rfl
  · intro b st _ _ _ _
    rfl
  · intro m st _ _ _ _
    rfl
  · intro s st _ _ _ _
    rfl
  · -- ref
    intro a st hwf hne hres hdangle
    have ha : a ∈ refsV (.ref a) := by simp [refsV]
    have hu := hne a ha
    have hsub : substN S' (.ref a) = WVal.wlink (headUid (S'.getD a defaultEntity)).1
        (headUid (S'.getD a defaultEntity)).2 := linkOf_eq _ hu
    rw [show encodeW (substN S' (.ref a)) = encodeW (.wlink (headUid (S'.getD a defaultEntity)).1
        (headUid (S'.getD a defaultEntity)).2) from by rw [hsub]]
    rw [decode_linkObj reg true _ _ st hreg]
    have hr : lookupIndex st.index (lcStr (headUid (S'.getD a defaultEntity)).1,
        (headUid (S'.getD a defaultEntity)).2) = some (φ a) := hres a ha
    rw [hr]
    rfl
  · -- link
    intro sc i st hwf hne hres hdangle
    have hd : lookupIndex st.index (lcStr sc, i) = none := hdangle (sc, i) (by simp [linksV])
    rw [show encodeW (substN S' (.link sc i)) = encodeW (.wlink sc i) from rfl]
    rw [decode_linkObj reg true _ _ st hreg, hd]
    rfl
  · -- record
    intro t fs IH st hwf hne hres hdangle
    simp only [valOKb, Bool.and_eq_true] at hwf
    obtain ⟨⟨⟨h1, h2⟩, h3⟩, h4⟩ := hwf
    cases hc : lookupClazz reg t with
    | none => simp [clazzRecOKb, hc] at h1
    | some c =>
      simp only [clazzRecOKb, hc, Bool.and_eq_true, Bool.not_eq_true', beq_iff_eq] at h1
      have hSl : SlessF reg true st (encodeF (substNF S' fs)) (mapRefsF φ fs) :=
        IH st h4 (fun a ha => hne a (by simp only [refsV]; exact ha))
          (fun a ha => hres a (by simp only [refsV]; exact ha))
          (fun p hp => hdangle p (by simp only [linksV]; exact hp))
      have hkeysE : keysOf (encodeF (substNF S' fs)) = keysOf fs := by
        rw [keysOf_encodeF, keysOf_substNF]
      have hsorted : sortedKeysb (encodeF (substNF S' fs)) = true :=
        sortedKeysb_of_keys _ fs hkeysE h2
      have hnotypeG : typeKey ∉ keysOf (mapRefsF φ fs) := by
        rw [keysOf_mapRefsF]
        exact not_mem_keys_of_all _ _ h3
      have henc : encodeW (substN S' (.record t fs)) =
          .jobj (insKey (typeKey, .jstr t) (encodeF (substNF S' fs))) := by
        show JVal.jobj (sortKeys ((typeKey, JVal.jstr t) :: encodeF (substNF S' fs))) = _
        rw [show sortKeys ((typeKey, JVal.jstr t) :: encodeF (substNF S' fs)) =
          insKey (typeKey, JVal.jstr t) (sortKeys (encodeF (substNF S' fs))) from rfl,
          sortKeys_id _ hsorted]
      rw [henc, decodeJ_obj]
      have hIns : SlessF reg true st (insKey (typeKey, .jstr t) (encodeF (substNF S' fs)))
          (insKey (typeKey, .gstr t) (mapRefsF φ fs)) := slessF_insKey hSl rfl
      rw [hIns.decodeF_eq]
      show loadAndIndex reg true (insKey (typeKey, GVal.gstr t) (mapRefsF φ fs)) st = _
      rw [loadAndIndex_clazz reg true _ st t c (lookupF_insKey_self _ _ _ hnotypeG) hc]
      simp only [h1.1, Bool.false_eq_true, if_false]
      rw [eraseKey_insKey _ _ _ hnotypeG, h1.2]
      rfl
  · -- glist
    intro xs IH st hwf hne hres hdangle
    have hSl : SlessL reg true st (encodeL (substNL S' xs)) (mapRefsL φ xs) :=
      IH st hwf (fun a ha => hne a (by simp only [refsV]; exact ha))
        (fun a ha => hres a (by simp only [refsV]; exact ha))
        (fun p hp => hdangle p (by simp only [linksV]; exact hp))
    rw [show encodeW (substN S' (.glist xs)) = .jarr (encodeL (substNL S' xs)) from rfl,
      decodeJ_arr, hSl.decodeL_eq]
    rfl
  · -- gdict
    intro fs IH st hwf hne hres hdangle
    simp only [valOKb, Bool.and_eq_true] at hwf
    obtain ⟨⟨h2, h3⟩, h4⟩ := hwf
    have hSl : SlessF reg true st (encodeF (substNF S' fs)) (mapRefsF φ fs) :=
      IH st h4 (fun a ha => hne a (by simp only [refsV]; exact ha))
        (fun a ha => hres a (by simp only [refsV]; exact ha))
        (fun p hp => hdangle p (by simp only [linksV]; exact hp))
    have hkeysE : keysOf (encodeF (substNF S' fs)) = keysOf fs := by
      rw [keysOf_encodeF, keysOf_substNF]
    have hsorted : sortedKeysb (encodeF (substNF S' fs)) = true :=
      sortedKeysb_of_keys _ fs hkeysE h2
    have hnotypeG : typeKey ∉ keysOf (mapRefsF φ fs) := by
      rw [keysOf_mapRefsF]
      exact not_mem_keys_of_all _ _ h3
    have henc : encodeW (substN S' (.gdict fs)) = .jobj (encodeF (substNF S' fs)) := by
      show JVal.jobj (sortKeys (encodeF (substNF S' fs))) = _
      rw [sortKeys_id _ hsorted]
    rw [henc, decodeJ_obj, hSl.decodeF_eq]
    show loadAndIndex reg true (mapRefsF φ fs) st = _
    rw [loadAndIndex_noType _ _ _ _ (lookupF_none_of_not_mem _ _ hnotypeG)]
    rfl
  · intro st _ _ _ _
    exact SlessL.nil
  · -- list cons
    intro x l IHx IHl st hwf hne hres hdangle
    simp only [valOKbL, Bool.and_eq_true] at hwf
    exact SlessL.cons
      (IHx st hwf.1
        (fun a ha => hne a (by simp only [refsL, List.mem_append]; exact Or.inl ha))
        (fun a ha => hres a (by simp only [refsL, List.mem_append]; exact Or.inl ha))
        (fun p hp => hdangle p (by simp only [linksL, List.mem_append]; exact Or.inl hp)))
      (IHl st hwf.2
        (fun a ha => hne a (by simp only [refsL, List.mem_append]; exact Or.inr ha))
        (fun a ha => hres a (by simp only [refsL, List.mem_append]; exact Or.inr ha))
        (fun p hp => hdangle p (by simp only [linksL, List.mem_append]; exact Or.inr hp)))
  · intro st _ _ _ _
    exact SlessF.nil
  · -- fields cons
    intro k v l IHv IHl st hwf hne hres hdangle
    simp only [valOKbF, Bool.and_eq_true] at hwf
    exact SlessF.cons
      (IHv st hwf.1
        (fun a ha => hne a (by simp only [refsF, List.mem_append]; exact Or.inl ha))
        (fun a ha => hres a (by simp only [refsF, List.mem_append]; exact Or.inl ha))
        (fun p hp => hdangle p (by simp only [linksF, List.mem_append]; exact Or.inl hp)))
      (IHl st hwf.2
        (fun a ha => hne a (by simp only [refsF, List.mem_append]; exact Or.inr ha))
        (fun a ha => hres a (by simp only [refsF, List.mem_append]; exact Or.inr ha))
        (fun p hp => hdangle p (by simp only [linksF, List.mem_append]; exact Or.inr hp)))

/-! ## List position and store utilities -/

def posOf : List Nat → Nat → Nat
  | [], _ => 0
  | x :: l, a => if x = a then 0 else posOf l a + 1

def entAt (S : List Entity) (a : Nat) : Entity := S.getD a defaultEntity

/-- The image of a source entity in the decoded store: same tag and uids, fields
with references renamed. -/
def decEnt (φ : Nat → Nat) (e : Entity) : Entity := ⟨e.typ, e.uids, mapRefsF φ e.fields⟩

theorem posOf_lt_length (l : List Nat) (a : Nat) (h : a ∈ l) : posOf l a < l.length := by
  induction l with
  | nil => simp at h
  | cons x t ih =>
    by_cases hx : x = a
    · simp [posOf, hx]
    · have : a ∈ t := by
        cases h with
        | head => exact absurd rfl hx
        | tail _ h' => exact h'
      simp only [posOf, if_neg hx, List.length_cons]
      have := ih this
      omega

theorem posOf_append (done : List Nat) (a : Nat) (rest : List Nat) (h : a ∉ done) :
    posOf (done ++ a :: rest) a = done.length := by
  induction done with
  | nil => simp [posOf]
  | cons x t ih =>
    simp only [List.mem_cons, not_or] at h
    simp only [List.cons_append, posOf, if_neg (fun hh : x = a => h.1 hh.symm), List.length_cons]
    show posOf (t ++ a :: rest) a + 1 = t.length + 1
    rw [ih h.2]

theorem getD_map_posOf (f : Nat → Entity) (l : List Nat) (a : Nat) (h : a ∈ l) :
    (l.map f).getD (posOf l a) defaultEntity = f a := by
  induction l with
  | nil => simp at h
  | cons x t ih =>
    by_cases hx : x = a
    · simp [posOf, hx]
    · have ht : a ∈ t := by
        cases h with
        | head => exact absurd rfl hx
        | tail _ hh => exact hh
      simp only [posOf, if_neg hx, List.map_cons, List.getD_cons_succ]
      exact ih ht

theorem posOf_inj (l : List Nat) (a b : Nat) (ha : a ∈ l) (hb : b ∈ l)
    (h : posOf l a = posOf l b) : a = b := by
  induction l with
  | nil => simp at ha
  | cons x t ih =>
    by_cases hxa : x = a <;> by_cases hxb : x = b
    · rw [← hxa, ← hxb]
    · rw [posOf, if_pos hxa, posOf, if_neg hxb] at h
      omega
    · rw [posOf, if_neg hxa, posOf, if_pos hxb] at h
      omega
    · rw [posOf, if_neg hxa, posOf, if_neg hxb] at h
      have hta : a ∈ t := by
        cases ha with
        | head => exact absurd rfl hxa
        | tail _ hh => exact hh
      have htb : b ∈ t := by
        cases hb with
        | head => exact absurd rfl hxb
        | tail _ hh => exact hh
      exact ih hta htb (by omega)

theorem posOf_getD (l : List Nat) (hnd : l.Nodup) (j : Nat) (hj : j < l.length) :
    posOf l (l.getD j 0) = j := by
  induction l generalizing j with
  | nil => simp at hj
  | cons x t ih =>
    cases j with
    | zero => simp [posOf]
    | succ j2 =>
      have hj2 : j2 < t.length := by simpa using hj
      have hmem : t.getD j2 0 ∈ t := by
        rw [List.getD_eq_getElem t 0 hj2]
        exact List.getElem_mem hj2
      have hx : x ≠ t.getD j2 0 := by
        intro hh
        rw [hh] at hnd
        exact (List.nodup_cons.mp hnd).1 hmem
      simp only [List.getD_cons_succ, posOf, if_neg hx]
      rw [ih (List.nodup_cons.mp hnd).2 j2 hj2]

theorem lookupIndex_nil (key : String × String) : lookupIndex [] key = none := rfl

theorem lookupIndex_cons (k : String × String) (v : Nat)
    (ix : List ((String × String) × Nat)) (key : String × String) :
    lookupIndex ((k, v) :: ix) key = if k = key then some v else lookupIndex ix key := by
  by_cases h : k = key
  · subst h
    simp [lookupIndex, List.find?]
  · have hb : (k.1 == key.1 && k.2 == key.2) = false := by
      rw [Bool.and_eq_false_iff]
      by_cases h1 : k.1 = key.1
      · right
        rw [beq_eq_false_iff_ne]
        intro h2
        exact h (Prod.ext h1 h2)
      · left
        rw [beq_eq_false_iff_ne]
        exact h1
    simp [lookupIndex, List.find?, hb, h]

theorem lookupIndex_inserts (us : List (String × String)) (a : Nat) :
    ∀ (ix : List ((String × String) × Nat)) (key : String × String),
    lookupIndex (us.foldl (fun ix p => ((lcStr p.1, p.2), a) :: ix) ix) key =
      if key ∈ us.map (fun p => (lcStr p.1, p.2)) then some a else lookupIndex ix key := by
  induction us with
  | nil =>
    intro ix key
    simp
  | cons p t ih =>
    intro ix key
    simp only [List.foldl_cons, List.map_cons]
    rw [ih]
    by_cases hk : key ∈ t.map (fun p => (lcStr p.1, p.2))
    · rw [if_pos hk, if_pos (by simp [hk])]
    · rw [if_neg hk, lookupIndex_cons]
      by_cases he : (lcStr p.1, p.2) = key
      · rw [if_pos he, if_pos (by simp [he])]
      · rw [if_neg he, if_neg (by
          simp only [List.mem_cons, not_or]
          exact ⟨fun hh => he hh.symm, hk⟩)]

/-! ## `set_uuids` lemmas -/

theorem setUuidsFrom_length (S : List Entity) : ∀ i, (setUuidsFrom i S).length = S.length := by
  induction S with
  | nil => intro i; rfl
  | cons e t ih => intro i; simp [setUuidsFrom, ih]

theorem setUuids_length (S : List Entity) : (setUuids S).length = S.length :=
  setUuidsFrom_length S 0

theorem setUuidsFrom_getD (S : List Entity) : ∀ i a, a < S.length →
    (setUuidsFrom i S).getD a defaultEntity =
      (if (S.getD a defaultEntity).uids = [] then
        { S.getD a defaultEntity with uids := [(autoScope, autoId (i + a))] }
      else S.getD a defaultEntity) := by
  induction S with
  | nil =>
    intro i a h
    simp at h
  | cons e t ih =>
    intro i a h
    cases a with
    | zero => simp [setUuidsFrom]
    | succ a2 =>
      have h2 : a2 < t.length := by simpa using h
      simp only [setUuidsFrom, List.getD_cons_succ]
      rw [ih (i + 1) a2 h2]
      have harith : i + 1 + a2 = i + (a2 + 1) := by omega
      rw [harith]

theorem setUuids_uids_ne_nil (S : List Entity) (a : Nat) (h : a < (setUuids S).length) :
    (entAt (setUuids S) a).uids ≠ [] := by
  rw [setUuids_length] at h
  show ((setUuidsFrom 0 S).getD a defaultEntity).uids ≠ []
  rw [setUuidsFrom_getD S 0 a h]
  by_cases hu : (S.getD a defaultEntity).uids = []
  · rw [if_pos hu]
    simp
  · rw [if_neg hu]
    exact hu

theorem setUuidsFrom_all_nonempty (S : List Entity)
    (h : ∀ e ∈ S, e.uids ≠ []) : ∀ i, setUuidsFrom i S = S := by
  induction S with
  | nil => intro i; rfl
  | cons e t ih =>
    intro i
    simp only [setUuidsFrom, if_neg (h e (by simp))]
    rw [ih (fun x hx => h x (by simp [hx])) (i + 1)]

theorem setUuids_mem_nonempty (S : List Entity) (e : Entity)
    (h : e ∈ setUuids S) : e.uids ≠ [] := by
  have key : ∀ (T : List Entity) (i : Nat), e ∈ setUuidsFrom i T → e.uids ≠ [] := by
    intro T
    induction T with
    | nil =>
      intro i hmem
      simp [setUuidsFrom] at hmem
    | cons x t ih =>
      intro i hmem
      simp only [setUuidsFrom, List.mem_cons] at hmem
      cases hmem with
      | inl heq =>
        subst heq
        by_cases hu : x.uids = []
        · rw [if_pos hu]
          simp
        · rw [if_neg hu]
          exact hu
      | inr hmem2 => exact ih _ hmem2
  exact key S 0 h

/-- `set_uuids` is idempotent: a second pass changes nothing. -/
theorem setUuids_idem (S : List Entity) : setUuids (setUuids S) = setUuids S :=
  setUuidsFrom_all_nonempty _ (fun e he => setUuids_mem_nonempty S e he) 0

theorem headUid_mem (e : Entity) (h : e.uids ≠ []) : headUid e ∈ e.uids := by
  cases hu : e.uids with
  | nil => exact absurd hu h
  | cons p t => simp [headUid, hu]

/-! ## Reachability -/

/-- Entity addresses reachable from entity address `c` (reflexively) by following
entity-valued fields. -/
inductive ReachesE (S : List Entity) (c : Nat) : Nat → Prop
  | refl : ReachesE S c c
  | step {b a : Nat} (hb : ReachesE S c b) (h : a ∈ refsE S b) : ReachesE S c a

/-- Entity addresses reachable from the value `g`: the entities `flatten` collects
into the context. -/
inductive Reaches (S : List Entity) (g : GVal) : Nat → Prop
  | direct {a : Nat} (h : a ∈ refsV g) : Reaches S g a
  | step {b a : Nat} (hb : Reaches S g b) (h : a ∈ refsE S b) : Reaches S g a

theorem reachesE_trans (S : List Entity) (c b x : Nat) (h1 : ReachesE S c b)
    (h2 : ReachesE S b x) : ReachesE S c x := by
  induction h2 with
  | refl => exact h1
  | step _ hmem ih => exact .step ih hmem

theorem reaches_of_reachesE (S : List Entity) (g : GVal) (c x : Nat)
    (hc : Reaches S g c) (h : ReachesE S c x) : Reaches S g x := by
  induction h with
  | refl => exact hc
  | step _ hmem ih => exact .step ih hmem

/-- Extraction from the value checker: references are bounded and explicit links
miss every entity index key. -/
theorem valOK_facts (reg : Registry) (keys : List (String × String)) (b : Nat) :
    (∀ v, valOKb reg keys b v = true →
      (∀ a ∈ refsV v, a < b) ∧ (∀ p ∈ linksV v, (lcStr p.1, p.2) ∉ keys)) ∧
    (∀ xs, valOKbL reg keys b xs = true →
      (∀ a ∈ refsL xs, a < b) ∧ (∀ p ∈ linksL xs, (lcStr p.1, p.2) ∉ keys)) ∧
    (∀ fs, valOKbF reg keys b fs = true →
      (∀ a ∈ refsF fs, a < b) ∧ (∀ p ∈ linksF fs, (lcStr p.1, p.2) ∉ keys)) := by
  refine gval_triple_ind _ _ _ ?_ ?_ ?_ ?_ ?_ ?_ ?_ ?_ ?_ ?_ ?_ ?_ ?_
  · intro _
    exact ⟨by simp [refsV], by simp [linksV]⟩
  · intro _ _
    exact ⟨by simp [refsV], by simp [linksV]⟩
  · intro _ _
    exact ⟨by simp [refsV], by simp [linksV]⟩
  · intro _ _
    exact ⟨by simp [refsV], by simp [linksV]⟩
  · intro a h
    refine ⟨?_, by simp [linksV]⟩
    intro x hx
    simp only [refsV, List.mem_singleton] at hx
    subst hx
    exact of_decide_eq_true h
  · intro sc i h
    refine ⟨by simp [refsV], ?_⟩
    intro p hp
    simp only [linksV, List.mem_singleton] at hp
    subst hp
    simp only [valOKb, Bool.not_eq_true'] at h
    intro hmem
    have h2 : keys.contains (lcStr sc, i) = true := List.elem_iff.mpr hmem
    rw [h] at h2
    exact Bool.false_ne_true h2
  · intro t fs IH h
    simp only [valOKb, Bool.and_eq_true] at h
    have := IH h.2
    exact ⟨fun a ha => this.1 a (by simpa [refsV] using ha),
      fun p hp => this.2 p (by simpa [linksV] using hp)⟩
  · intro xs IH h
    have := IH (by simpa [valOKb] using h)
    exact ⟨fun a ha => this.1 a (by simpa [refsV] using ha),
      fun p hp => this.2 p (by simpa [linksV] using hp)⟩
  · intro fs IH h
    simp only [valOKb, Bool.and_eq_true] at h
    have := IH h.2
    exact ⟨fun a ha => this.1 a (by simpa [refsV] using ha),
      fun p hp => this.2 p (by simpa [linksV] using hp)⟩
  · intro _
    exact ⟨by simp [refsL], by simp [linksL]⟩
  · intro x l IHx IHl h
    simp only [valOKbL, Bool.and_eq_true] at h
    have h1 := IHx h.1
    have h2 := IHl h.2
    refine ⟨fun a ha => ?_, fun p hp => ?_⟩
    · rcases List.mem_append.mp (by simpa [refsL] using ha) with hh | hh
      · exact h1.1 a hh
      · exact h2.1 a hh
    · rcases List.mem_append.mp (by simpa [linksL] using hp) with hh | hh
      · exact h1.2 p hh
      · exact h2.2 p hh
  · intro _
    exact ⟨by simp [refsF], by simp [linksF]⟩
  · intro k v l IHv IHl h
    simp only [valOKbF, Bool.and_eq_true] at h
    have h1 := IHv h.1
    have h2 := IHl h.2
    refine ⟨fun a ha => ?_, fun p hp => ?_⟩
    · rcases List.mem_append.mp (by simpa [refsF] using ha) with hh | hh
      · exact h1.1 a hh
      · exact h2.1 a hh
    · rcases List.mem_append.mp (by simpa [linksF] using hp) with hh | hh
      · exact h1.2 p hh
      · exact h2.2 p hh

theorem refsE_out (S : List Entity) (a : Nat) (h : S.length ≤ a) : refsE S a = [] := by
  rw [refsE, List.getD_eq_default]
  · rfl
  · exact h

theorem closure_self (S : List Entity) (fuel c : Nat) (h : 0 < fuel) :
    c ∈ reachClosure S fuel c := by
  cases fuel with
  | zero => omega
  | succ f => simp [reachClosure]

theorem closure_closed (S : List Entity) (htopo : ∀ a, ∀ b ∈ refsE S a, b < a) :
    ∀ c, (∀ fuel, c < fuel → ∀ b ∈ reachClosure S fuel c, ∀ x ∈ refsE S b,
      x ∈ reachClosure S fuel c) := by
  intro c
  induction c using Nat.strong_induction_on with
  | _ c ih =>
    intro fuel hc b hb x hx
    cases fuel with
    | zero => omega
    | succ f =>
      simp only [reachClosure, List.mem_cons, List.mem_flatMap] at hb ⊢
      cases hb with
      | inl heq =>
        subst heq
        right
        have hxb : x < b := htopo b x hx
        exact ⟨x, hx, closure_self S f x (by omega)⟩
      | inr hmem =>
        obtain ⟨d, hd, hbd⟩ := hmem
        have hdc : d < c := htopo c d hd
        right
        exact ⟨d, hd, ih d hdc f (by omega) b hbd x hx⟩

theorem mem_reachClosure (S : List Entity) (htopo : ∀ a, ∀ b ∈ refsE S a, b < a) :
    ∀ c fuel, c < fuel → ∀ x, (x ∈ reachClosure S fuel c ↔ ReachesE S c x) := by
  intro c
  induction c using Nat.strong_induction_on with
  | _ c ih =>
    intro fuel hc x
    constructor
    · intro hx
      cases fuel with
      | zero => omega
      | succ f =>
        simp only [reachClosure, List.mem_cons, List.mem_flatMap] at hx
        cases hx with
        | inl heq => exact heq ▸ ReachesE.refl
        | inr hmem =>
          obtain ⟨b, hb, hxb⟩ := hmem
          have hbc : b < c := htopo c b hb
          have := (ih b hbc f (by omega) x).mp hxb
          exact reachesE_trans S c b x (.step .refl hb) this
    · intro hx
      induction hx with
      | refl => exact closure_self S fuel c (by omega)
      | step hb hmem ihb => exact closure_closed S htopo c fuel hc _ ihb _ hmem

theorem mem_reachList (S : List Entity) (g : GVal)
    (htopo : ∀ a, ∀ b ∈ refsE S a, b < a) (hvalid : ∀ x ∈ refsV g, x < S.length) :
    ∀ x, (x ∈ reachList S g ↔ Reaches S g x) := by
  intro x
  constructor
  · intro hx
    simp only [reachList, List.mem_flatMap] at hx
    obtain ⟨c, hc, hxc⟩ := hx
    exact reaches_of_reachesE S g c x (.direct hc)
      ((mem_reachClosure S htopo c S.length (hvalid c hc) x).mp hxc)
  · intro hx
    induction hx with
    | direct hc =>
      simp only [reachList, List.mem_flatMap]
      exact ⟨_, hc, closure_self S S.length _ (by have := hvalid _ hc; omega)⟩
    | step hb hmem ih =>
      simp only [reachList, List.mem_flatMap] at ih ⊢
      obtain ⟨c, hc, hbc⟩ := ih
      exact ⟨c, hc, closure_closed S htopo c S.length (hvalid c hc) _ hbc _ hmem⟩

theorem reaches_lt (S : List Entity) (g : GVal)
    (htopo : ∀ a, ∀ b ∈ refsE S a, b < a) (hvalid : ∀ x ∈ refsV g, x < S.length) :
    ∀ x, Reaches S g x → x < S.length := by
  intro x hx
  induction hx with
  | direct hc => exact hvalid _ hc
  | step hb hmem ih =>
    have := htopo _ _ hmem
    omega

theorem mem_ctxAddrs (S : List Entity) (g : GVal)
    (htopo : ∀ a, ∀ b ∈ refsE S a, b < a) (hvalid : ∀ x ∈ refsV g, x < S.length) :
    ∀ x, (x ∈ ctxAddrs S g ↔ Reaches S g x) := by
  intro x
  simp only [ctxAddrs, List.mem_filter, List.mem_range]
  constructor
  · intro hx
    exact (mem_reachList S g htopo hvalid x).mp (List.elem_iff.mp hx.2)
  · intro hx
    exact ⟨reaches_lt S g htopo hvalid x hx,
      List.elem_iff.mpr ((mem_reachList S g htopo hvalid x).mpr hx)⟩

theorem ctxAddrs_pairwise (S : List Entity) (g : GVal) :
    (ctxAddrs S g).Pairwise (· < ·) :=
  List.Pairwise.filter _ (List.pairwise_lt_range S.length)

theorem ctxAddrs_nodup (S : List Entity) (g : GVal) : (ctxAddrs S g).Nodup :=
  (ctxAddrs_pairwise S g).imp Nat.ne_of_lt

theorem keysOf_pairMap {α β : Type} (f : α → β) (us : List (String × α)) :
    keysOf (us.map (fun p => (p.1, f p.2))) = keysOf us := by
  induction us with
  | nil => rfl
  | cons p t ih => simp [keysOf, ih]

theorem not_mem_keys_of_all2 (k1 k2 : String) (l : List (String × GVal))
    (h : l.all (fun p => p.1 != k1 && p.1 != k2) = true) :
    k1 ∉ keysOf l ∧ k2 ∉ keysOf l := by
  induction l with
  | nil => simp [keysOf]
  | cons p t ih =>
    obtain ⟨k', v⟩ := p
    simp only [List.all_cons, Bool.and_eq_true, bne_iff_ne] at h
    obtain ⟨⟨h1, h2⟩, ht⟩ := h
    have := ih ht
    rw [keysOf_cons]
    simp only [List.mem_cons, not_or]
    exact ⟨⟨fun hh => h1 hh.symm, this.1⟩, ⟨fun hh => h2 hh.symm, this.2⟩⟩

theorem encodeL_map (l : List Nat) (f : Nat → WVal) :
    encodeL (l.map f) = l.map (fun a => encodeW (f a)) := by
  induction l with
  | nil => rfl
  | cons x t ih => simp [encodeL, ih]

theorem typeKey_ne_uidsKey : typeKey ≠ uidsKey := by decide

/-- Decoding one context entry: the encoded thin copy of entity `a` constructs its
image (same tag and uids, fields renamed through `φ`), appends it to the store, and
indexes it under every lower-cased uid pair. -/
theorem decode_ctxEntity (reg : Registry) (S' : List Entity) (keys : List (String × String))
    (φ : Nat → Nat) (hreg : lookupClazz reg linkTag = none) (a : Nat) (st : DecSt)
    (he : entOKb reg keys a (entAt S' a) = true)
    (hne : ∀ b ∈ refsE S' a, (entAt S' b).uids ≠ [])
    (hres : ∀ b ∈ refsE S' a, lookupIndex st.index (linkKey S' b) = some (φ b))
    (hdangle : ∀ p ∈ linksF (entAt S' a).fields,
      lookupIndex st.index (lcStr p.1, p.2) = none) :
    decodeJ reg true (encodeW (substTop S' (.ref a))) st =
      .ok (.ref st.store.length,
        { store := st.store ++ [decEnt φ (entAt S' a)]
          index := (entAt S' a).uids.foldl
            (fun ix p => ((lcStr p.1, p.2), st.store.length) :: ix) st.index }) := by
  simp only [entOKb, Bool.and_eq_true] at he
  obtain ⟨⟨⟨⟨⟨hclz, husort⟩, huscope⟩, hfsort⟩, hfkeys⟩, hfwf⟩ := he
  cases hc : lookupClazz reg (entAt S' a).typ with
  | none =>
    rw [show lookupClazz reg (Entity.typ (entAt S' a)) = none from hc] at hclz
    simp at hclz
  | some c =>
    rw [show lookupClazz reg (Entity.typ (entAt S' a)) = some c from hc] at hclz
    simp only [Bool.and_eq_true, beq_iff_eq] at hclz
    have hscopes : ∀ p ∈ (entAt S' a).uids, p.1 ≠ typeKey := by
      intro p hp
      have := List.all_eq_true.mp huscope p hp
      simpa [bne_iff_ne] using this
    obtain ⟨hfT, hfU⟩ := not_mem_keys_of_all2 typeKey uidsKey _ hfkeys
    have hSl : SlessF reg true st (encodeF (substNF S' (entAt S' a).fields))
        (mapRefsF φ (entAt S' a).fields) :=
      (decode_substN reg S' keys a φ hreg).2.2 (entAt S' a).fields st hfwf hne hres hdangle
    have hud : decodeJ reg true
        (.jobj ((entAt S' a).uids.map (fun p => (p.1, JVal.jstr p.2)))) st =
        .ok (.gdict ((entAt S' a).uids.map (fun p => (p.1, GVal.gstr p.2))), st) :=
      decode_uidsObj reg true st _ hscopes
    have husortedJ : sortedKeysb ((entAt S' a).uids.map (fun p => (p.1, JVal.jstr p.2))) = true :=
      sortedKeysb_of_keys _ _ (keysOf_pairMap _ _) husort
    have hkeysE : keysOf (encodeF (substNF S' (entAt S' a).fields)) =
        keysOf (entAt S' a).fields := by
      rw [keysOf_encodeF, keysOf_substNF]
    have hsortedE : sortedKeysb (encodeF (substNF S' (entAt S' a).fields)) = true :=
      sortedKeysb_of_keys _ _ hkeysE hfsort
    have henc : encodeW (substTop S' (.ref a)) =
        .jobj (insKey (typeKey, .jstr (entAt S' a).typ)
          (insKey (uidsKey, .jobj ((entAt S' a).uids.map (fun p => (p.1, JVal.jstr p.2))))
            (encodeF (substNF S' (entAt S' a).fields)))) := by
      show JVal.jobj (sortKeys ((typeKey, JVal.jstr (entAt S' a).typ) ::
        (uidsKey, JVal.jobj (sortKeys ((entAt S' a).uids.map (fun p => (p.1, JVal.jstr p.2))))) ::
        encodeF (substNF S' (entAt S' a).fields))) = _
      rw [sortKeys_id _ husortedJ]
      rw [show sortKeys ((typeKey, JVal.jstr (entAt S' a).typ) ::
        (uidsKey, JVal.jobj ((entAt S' a).uids.map (fun p => (p.1, JVal.jstr p.2)))) ::
        encodeF (substNF S' (entAt S' a).fields)) =
        insKey (typeKey, JVal.jstr (entAt S' a).typ)
          (insKey (uidsKey, JVal.jobj ((entAt S' a).uids.map (fun p => (p.1, JVal.jstr p.2))))
            (sortKeys (encodeF (substNF S' (entAt S' a).fields)))) from rfl]
      rw [sortKeys_id _ hsortedE]
    rw [henc, decodeJ_obj]
    have hIns1 : SlessF reg true st
        (insKey (uidsKey, .jobj ((entAt S' a).uids.map (fun p => (p.1, JVal.jstr p.2))))
          (encodeF (substNF S' (entAt S' a).fields)))
        (insKey (uidsKey, .gdict ((entAt S' a).uids.map (fun p => (p.1, GVal.gstr p.2))))
          (mapRefsF φ (entAt S' a).fields)) := slessF_insKey hSl hud
    have hIns2 : SlessF reg true st
        (insKey (typeKey, .jstr (entAt S' a).typ) _) (insKey (typeKey, .gstr (entAt S' a).typ) _) :=
      slessF_insKey hIns1 rfl
    rw [hIns2.decodeF_eq]
    show loadAndIndex reg true (insKey (typeKey, GVal.gstr (entAt S' a).typ)
      (insKey (uidsKey, .gdict ((entAt S' a).uids.map (fun p => (p.1, GVal.gstr p.2))))
        (mapRefsF φ (entAt S' a).fields))) st = _
    have hTnotin : typeKey ∉ keysOf (insKey
        (uidsKey, GVal.gdict ((entAt S' a).uids.map (fun p => (p.1, GVal.gstr p.2))))
        (mapRefsF φ (entAt S' a).fields)) :=
      not_mem_keys_insKey _ _ _ _ (by rw [keysOf_mapRefsF]; exact hfT) typeKey_ne_uidsKey
    rw [loadAndIndex_clazz reg true _ st (entAt S' a).typ c
      (lookupF_insKey_self _ _ _ hTnotin) hc]
    simp only [hclz.1, if_true]
    rw [eraseKey_insKey _ _ _ hTnotin]
    rw [entFromDict_insert c _ _ (by rw [keysOf_mapRefsF]; exact hfU)]
    rw [hclz.2]
    rfl

theorem entKeys_sub_uidKeys (S : List Entity) (b : Nat) (hb : b < S.length)
    (key : String × String) (hk : key ∈ entKeys (entAt S b)) : key ∈ uidKeys S := by
  simp only [uidKeys, List.mem_flatMap]
  refine ⟨entAt S b, ?_, hk⟩
  show S.getD b defaultEntity ∈ S
  rw [List.getD_eq_getElem S defaultEntity hb]
  exact List.getElem_mem hb

/-- Invariant of the left-to-right decode of the context list: after the entities
at addresses `done` have been decoded, the store holds exactly their images and the
index maps exactly their lower-cased uid pairs to their positions. -/
def CtxInv (S' : List Entity) (φ : Nat → Nat) (done : List Nat) (st : DecSt) : Prop :=
  st.store = done.map (fun b => decEnt φ (entAt S' b)) ∧
  (∀ b ∈ done, ∀ p ∈ (entAt S' b).uids,
    lookupIndex st.index (lcStr p.1, p.2) = some (φ b)) ∧
  (∀ key, lookupIndex st.index key ≠ none → ∃ b ∈ done, key ∈ entKeys (entAt S' b))

theorem ctx_fold (reg : Registry) (S' : List Entity) (ctx : List Nat) (φ : Nat → Nat)
    (hreg : lookupClazz reg linkTag = none)
    (hφ : ∀ b ∈ ctx, φ b = posOf ctx b)
    (hctxOK : ∀ a ∈ ctx, entOKb reg (uidKeys S') a (entAt S' a) = true)
    (hctxNe : ∀ a ∈ ctx, (entAt S' a).uids ≠ [])
    (hctxLt : ∀ a ∈ ctx, a < S'.length)
    (hclosed : ∀ a ∈ ctx, ∀ b ∈ refsE S' a, b ∈ ctx)
    (hpair : ctx.Pairwise (· < ·))
    (htopoE : ∀ a, ∀ b ∈ refsE S' a, b < a)
    (hdisj : ∀ a ∈ ctx, ∀ b ∈ ctx, a ≠ b →
      ∀ key ∈ entKeys (entAt S' a), key ∉ entKeys (entAt S' b))
    (hlinks : ∀ a ∈ ctx, ∀ p ∈ linksF (entAt S' a).fields,
      (lcStr p.1, p.2) ∉ uidKeys S') :
    ∀ todo done st, ctx = done ++ todo → CtxInv S' φ done st →
    ∃ stF, decodeL reg true (todo.map (fun a => encodeW (substTop S' (.ref a)))) st =
        .ok (todo.map (fun a => GVal.ref (φ a)), stF) ∧ CtxInv S' φ ctx stF := by
  intro todo
  induction todo with
  | nil =>
    intro done st hctx hInv
    refine ⟨st, by simp [decodeL_nil], ?_⟩
    rw [hctx, List.append_nil]
    exact hInv
  | cons a todo' ih =>
    intro done st hctx hInv
    obtain ⟨hstore, hidx, hdom⟩ := hInv
    have hamem : a ∈ ctx := by rw [hctx]; simp
    have handone : a ∉ done := by
      have hnd : ctx.Nodup := hpair.imp Nat.ne_of_lt
      rw [hctx] at hnd
      have := (List.nodup_append.mp hnd).2.2
      intro hmem
      exact this hmem (by simp)
    have hlen : st.store.length = φ a := by
      rw [hstore, List.length_map, hφ a hamem, hctx, posOf_append done a todo' handone]
    have hstep : decodeJ reg true (encodeW (substTop S' (.ref a))) st =
        .ok (.ref st.store.length,
          { store := st.store ++ [decEnt φ (entAt S' a)]
            index := (entAt S' a).uids.foldl
              (fun ix p => ((lcStr p.1, p.2), st.store.length) :: ix) st.index }) := by
      apply decode_ctxEntity reg S' (uidKeys S') φ hreg a st (hctxOK a hamem)
      · intro b hb
        exact hctxNe b (hclosed a hamem b hb)
      · intro b hb
        have hbc : b ∈ ctx := hclosed a hamem b hb
        have hba : b < a := htopoE a b hb
        have hbdone : b ∈ done := by
          rw [hctx] at hbc
          rcases List.mem_append.mp hbc with hh | hh
          · exact hh
          · exfalso
            rcases List.mem_cons.mp hh with hh2 | hh2
            · omega
            · have hp2 := hpair
              rw [hctx] at hp2
              have := ((List.pairwise_append.mp hp2).2.1)
              have halt := (List.pairwise_cons.mp this).1 b hh2
              omega
        exact hidx b hbdone (headUid (entAt S' b))
          (headUid_mem _ (hctxNe b hbc))
      · intro p hp
        cases hlu : lookupIndex st.index (lcStr p.1, p.2) with
        | none => rfl
        | some x =>
          exfalso
          obtain ⟨b, hbdone, hbk⟩ := hdom (lcStr p.1, p.2) (by rw [hlu]; simp)
          have hbc : b ∈ ctx := by rw [hctx]; exact List.mem_append.mpr (Or.inl hbdone)
          exact hlinks a hamem p hp
            (entKeys_sub_uidKeys S' b (hctxLt b hbc) _ hbk)
    have hInv2 : CtxInv S' φ (done ++ [a])
        { store := st.store ++ [decEnt φ (entAt S' a)]
          index := (entAt S' a).uids.foldl
            (fun ix p => ((lcStr p.1, p.2), st.store.length) :: ix) st.index } := by
      refine ⟨?_, ?_, ?_⟩
      · simp only [hstore, List.map_append, List.map_cons, List.map_nil]
      · intro b hb p hp
        rcases List.mem_append.mp hb with hbdone | hba
        · have hbc : b ∈ ctx := by rw [hctx]; exact List.mem_append.mpr (Or.inl hbdone)
          have hbne : b ≠ a := fun hh => handone (hh ▸ hbdone)
          show lookupIndex ((entAt S' a).uids.foldl
            (fun ix p => ((lcStr p.1, p.2), st.store.length) :: ix) st.index)
            (lcStr p.1, p.2) = some (φ b)
          rw [lookupIndex_inserts]
          rw [if_neg ?_]
          · exact hidx b hbdone p hp
          · intro hmem
            exact hdisj b hbc a hamem hbne (lcStr p.1, p.2)
              (by simp only [entKeys, List.mem_map]; exact ⟨p, hp, rfl⟩) hmem
        · have hba2 : b = a := by simpa using hba
          subst hba2
          show lookupIndex ((entAt S' b).uids.foldl
            (fun ix p => ((lcStr p.1, p.2), st.store.length) :: ix) st.index)
            (lcStr p.1, p.2) = some (φ b)
          rw [lookupIndex_inserts, if_pos (by simp only [List.mem_map]; exact ⟨p, hp, rfl⟩),
            hlen]
      · intro key hkey
        have hkey2 : (if key ∈ (entAt S' a).uids.map (fun p => (lcStr p.1, p.2))
            then some st.store.length else lookupIndex st.index key) ≠ none := by
          rw [← lookupIndex_inserts]
          exact hkey
        by_cases hmem : key ∈ (entAt S' a).uids.map (fun p => (lcStr p.1, p.2))
        · exact ⟨a, by simp, by simpa [entKeys] using hmem⟩
        · rw [if_neg hmem] at hkey2
          obtain ⟨b, hbdone, hbk⟩ := hdom key hkey2
          exact ⟨b, List.mem_append.mpr (Or.inl hbdone), hbk⟩
    obtain ⟨stF, hdec, hInvF⟩ := ih (done ++ [a]) _ (by rw [hctx]; simp) hInv2
    refine ⟨stF, ?_, hInvF⟩
    rw [hlen] at hstep hdec
    simp only [List.map_cons, decodeL_cons, hstep, hdec]

theorem sortKeys_envelope {α : Type} (A B : α) :
    sortKeys [(objectKey, A), (contextKey, B)] = [(contextKey, B), (objectKey, A)] := by
  show (if strLt objectKey contextKey then (objectKey, A) :: (contextKey, B) :: []
    else (contextKey, B) :: insKey (objectKey, A) []) = _
  rw [if_neg (show ¬(strLt objectKey contextKey = true) by decide)]
  rfl

theorem lookupF_envelope {α : Type} (A B : α) :
    lookupF objectKey [(contextKey, A), (objectKey, B)] = some B := by
  simp only [lookupF]
  rw [if_neg (show ¬(contextKey = objectKey) by decide)]
  simp

theorem lookupF_envelope_type {α : Type} (A B : α) :
    lookupF typeKey [(contextKey, A), (objectKey, B)] = none := by
  simp only [lookupF]
  rw [if_neg (show ¬(contextKey = typeKey) by decide),
    if_neg (show ¬(objectKey = typeKey) by decide)]

theorem mem_refsV_envelope (g : GVal) (x : Nat) :
    x ∈ refsV (GVal.gdict [(objectKey, g)]) ↔ x ∈ refsV g := by
  show x ∈ refsV g ++ refsF [] ↔ x ∈ refsV g
  simp [refsF]

theorem reaches_envelope (S : List Entity) (g : GVal) (x : Nat) :
    Reaches S (GVal.gdict [(objectKey, g)]) x ↔ Reaches S g x := by
  constructor
  · intro h
    induction h with
    | direct hc => exact .direct ((mem_refsV_envelope g _).mp hc)
    | step _ hmem ih => exact .step ih hmem
  · intro h
    induction h with
    | direct hc => exact .direct ((mem_refsV_envelope g _).mpr hc)
    | step _ hmem ih => exact .step ih hmem

theorem uidsDistinct_facts (S : List Entity) (h : uidsDistinctb S = true) :
    ∀ a b, a < S.length → b < S.length → a ≠ b →
    ∀ key ∈ entKeys (S.getD a defaultEntity), key ∉ entKeys (S.getD b defaultEntity) := by
  intro a b ha hb hne key hka hkb
  simp only [uidsDistinctb] at h
  have h1 := List.all_eq_true.mp h a (List.mem_range.mpr ha)
  have h2 := List.all_eq_true.mp h1 b (List.mem_range.mpr hb)
  rw [Bool.or_eq_true] at h2
  cases h2 with
  | inl heq => exact hne (by simpa using heq)
  | inr hdisj =>
    have h3 := List.all_eq_true.mp hdisj key hka
    rw [Bool.not_eq_true'] at h3
    have hc : (entKeys (S.getD b defaultEntity)).contains key = true := List.elem_iff.mpr hkb
    rw [h3] at hc
    exact Bool.false_ne_true hc

/-- C1: for every well-formed acyclic entity graph, `loads` after `dumps` returns
the original object graph up to a renaming `φ` of entity addresses: the same shape
(`mapRefs φ`), every reachable source entity reconstructed with its tag, uids and
field values (references again renamed through `φ`), and `φ` injective on the
reachable entities, so two references to one source entity become two references
to one single reconstructed instance. -/
theorem c1_roundtrip (reg : Registry) (S : List Entity) (g : GVal)
    (hok : dumpsOKb reg S g = true) :
    ∃ (φ : Nat → Nat) (S₂ : List Entity),
      loads reg (dumps S g).1 = .ok (mapRefs φ g, S₂) ∧
      (∀ a, Reaches (setUuids S) g a →
        φ a < S₂.length ∧ entAt S₂ (φ a) = decEnt φ (entAt (setUuids S) a)) ∧
      (∀ a b, Reaches (setUuids S) g a → Reaches (setUuids S) g b →
        φ a = φ b → a = b) := by
  simp only [dumpsOKb, Bool.and_eq_true] at hok
  obtain ⟨⟨⟨hreg0, hents⟩, hdist⟩, hval⟩ := hok
  have hreg : lookupClazz reg linkTag = none := Option.isNone_iff_eq_none.mp hreg0
  have hent : ∀ a, a < (setUuids S).length →
      entOKb reg (uidKeys (setUuids S)) a (entAt (setUuids S) a) = true := by
    intro a ha
    exact List.all_eq_true.mp hents a (List.mem_range.mpr ha)
  have htopo : ∀ a, ∀ b ∈ refsE (setUuids S) a, b < a := by
    intro a b hb
    by_cases ha : a < (setUuids S).length
    · have he := hent a ha
      simp only [entOKb, Bool.and_eq_true] at he
      exact ((valOK_facts reg (uidKeys (setUuids S)) a).2.2 _ he.2).1 b hb
    · rw [refsE_out (setUuids S) a (by omega)] at hb
      simp at hb
  have hneAll : ∀ a, a < (setUuids S).length →
      ((setUuids S).getD a defaultEntity).uids ≠ [] := by
    intro a ha
    exact setUuids_uids_ne_nil S a ha
  have hvalidEnv : ∀ x ∈ refsV (GVal.gdict [(objectKey, g)]), x < (setUuids S).length := by
    intro x hx
    exact ((valOK_facts reg (uidKeys (setUuids S)) (setUuids S).length).1 g hval).1 x
      ((mem_refsV_envelope g x).mp hx)
  set ctx := ctxAddrs (setUuids S) (GVal.gdict [(objectKey, g)]) with hctxdef
  have hlt : ∀ x ∈ ctx, x < (setUuids S).length := by
    intro x hx
    rw [hctxdef] at hx
    simp only [ctxAddrs, List.mem_filter, List.mem_range] at hx
    exact hx.1
  have hmemctx : ∀ x, x ∈ ctx ↔ Reaches (setUuids S) (GVal.gdict [(objectKey, g)]) x := by
    intro x
    rw [hctxdef]
    exact mem_ctxAddrs _ _ htopo hvalidEnv x
  have hdisjAll := uidsDistinct_facts (setUuids S) hdist
  have hfold := ctx_fold reg (setUuids S) ctx (posOf ctx) hreg
    (fun b _ => rfl)
    (fun a ha => hent a (hlt a ha))
    (fun a ha => hneAll a (hlt a ha))
    hlt
    (fun a ha b hb => (hmemctx b).mpr (Reaches.step ((hmemctx a).mp ha) hb))
    (by rw [hctxdef]; exact ctxAddrs_pairwise _ _)
    htopo
    (fun a ha b hb hne => hdisjAll a b (hlt a ha) (hlt b hb) hne)
    (by
      intro a ha p hp
      have he := hent a (hlt a ha)
      simp only [entOKb, Bool.and_eq_true] at he
      exact ((valOK_facts reg (uidKeys (setUuids S)) a).2.2 _ he.2).2 p hp)
    ctx [] emptySt (by simp)
    ⟨rfl, by simp, fun key hk => absurd (lookupIndex_nil key) hk⟩
  obtain ⟨stF, hdecL, hInvF⟩ := hfold
  have hrefg : ∀ x ∈ refsV g, x ∈ ctx := by
    intro x hx
    exact (hmemctx x).mpr (.direct ((mem_refsV_envelope g x).mpr hx))
  have hobj : decodeJ reg true (encodeW (substN (setUuids S) g)) stF =
      .ok (mapRefs (posOf ctx) g, stF) := by
    apply (decode_substN reg (setUuids S) (uidKeys (setUuids S)) (setUuids S).length
      (posOf ctx) hreg).1 g stF hval
    · intro a hax
      exact hneAll a (hlt a (hrefg a hax))
    · intro a hax
      exact hInvF.2.1 a (hrefg a hax) (headUid (entAt (setUuids S) a))
        (headUid_mem _ (hneAll a (hlt a (hrefg a hax))))
    · intro p hp
      cases hlu : lookupIndex stF.index (lcStr p.1, p.2) with
      | none => rfl
      | some x =>
        exfalso
        obtain ⟨b, hbctx, hbk⟩ := hInvF.2.2 (lcStr p.1, p.2) (by rw [hlu]; simp)
        exact ((valOK_facts reg (uidKeys (setUuids S)) (setUuids S).length).1 g hval).2 p hp
          (entKeys_sub_uidKeys (setUuids S) b (hlt b hbctx) _ hbk)
  have hd1 : (dumps S g).1 = jprint (encodeW (WVal.wdict
      [(objectKey, substN (setUuids S) g),
       (contextKey, WVal.wlist (flatten (setUuids S) (GVal.gdict [(objectKey, g)])))])) := rfl
  have hencL : encodeL (flatten (setUuids S) (GVal.gdict [(objectKey, g)])) =
      ctx.map (fun a => encodeW (substTop (setUuids S) (GVal.ref a))) := by
    rw [show flatten (setUuids S) (GVal.gdict [(objectKey, g)]) =
      ctx.map (fun a => substTop (setUuids S) (GVal.ref a)) from by rw [hctxdef]; rfl]
    exact encodeL_map ctx _
  have henc : encodeW (WVal.wdict
      [(objectKey, substN (setUuids S) g),
       (contextKey, WVal.wlist (flatten (setUuids S) (GVal.gdict [(objectKey, g)])))]) =
      JVal.jobj [(contextKey, JVal.jarr
          (ctx.map (fun a => encodeW (substTop (setUuids S) (GVal.ref a))))),
        (objectKey, encodeW (substN (setUuids S) g))] := by
    show JVal.jobj (sortKeys
      [(objectKey, encodeW (substN (setUuids S) g)),
       (contextKey, JVal.jarr (encodeL (flatten (setUuids S)
         (GVal.gdict [(objectKey, g)]))))]) = _
    rw [sortKeys_envelope, hencL]
  have hdecArr : decodeJ reg true (JVal.jarr
      (ctx.map (fun a => encodeW (substTop (setUuids S) (GVal.ref a))))) emptySt =
      .ok (.glist (ctx.map (fun a => GVal.ref (posOf ctx a))), stF) := by
    rw [decodeJ_arr]
    simp only [hdecL]
  have hdecEnv : decodeJ reg true (JVal.jobj
      [(contextKey, JVal.jarr (ctx.map (fun a => encodeW (substTop (setUuids S) (GVal.ref a))))),
       (objectKey, encodeW (substN (setUuids S) g))]) emptySt =
      .ok (GVal.gdict [(contextKey, GVal.glist (ctx.map (fun a => GVal.ref (posOf ctx a)))),
        (objectKey, mapRefs (posOf ctx) g)], stF) := by
    rw [decodeJ_obj]
    have hF : decodeF reg true
        [(contextKey, JVal.jarr (ctx.map (fun a => encodeW (substTop (setUuids S) (GVal.ref a))))),
         (objectKey, encodeW (substN (setUuids S) g))] emptySt =
        .ok ([(contextKey, GVal.glist (ctx.map (fun a => GVal.ref (posOf ctx a)))),
          (objectKey, mapRefs (posOf ctx) g)], stF) := by
      simp only [decodeF_cons, hdecArr, hobj, decodeF_nil]
    rw [hF]
    exact loadAndIndex_noType reg true _ stF (lookupF_envelope_type _ _)
  have hloads : loads reg (dumps S g).1 = .ok (mapRefs (posOf ctx) g, stF.store) := by
    rw [hd1, henc]
    simp only [loads, jparse_jprint, hdecEnv, lookupF_envelope]
  refine ⟨posOf ctx, stF.store, hloads, ?_, ?_⟩
  · intro a ha
    have hactx : a ∈ ctx := (hmemctx a).mpr ((reaches_envelope (setUuids S) g a).mpr ha)
    constructor
    · rw [hInvF.1, List.length_map]
      exact posOf_lt_length ctx a hactx
    · show stF.store.getD (posOf ctx a) defaultEntity = _
      rw [hInvF.1]
      exact getD_map_posOf _ ctx a hactx
  · intro a b ha hb hphi
    exact posOf_inj ctx a b
      ((hmemctx a).mpr ((reaches_envelope (setUuids S) g a).mpr ha))
      ((hmemctx b).mpr ((reaches_envelope (setUuids S) g b).mpr hb)) hphi

theorem c1_roundtrip_witness :
    dumpsOKb gemdRegistry
      [⟨"process_run", [("my", "p1")], []⟩,
       ⟨"material_run", [("my", "m1")], [("process", GVal.ref 0)]⟩]
      (GVal.glist [GVal.ref 1, GVal.ref 1]) = true ∧
    (∃ (φ : Nat → Nat) (S₂ : List Entity),
      loads gemdRegistry
        (dumps [⟨"process_run", [("my", "p1")], []⟩,
          ⟨"material_run", [("my", "m1")], [("process", GVal.ref 0)]⟩]
          (GVal.glist [GVal.ref 1, GVal.ref 1])).1 =
        .ok (mapRefs φ (GVal.glist [GVal.ref 1, GVal.ref 1]), S₂) ∧
      (∀ a, Reaches (setUuids [⟨"process_run", [("my", "p1")], []⟩,
          ⟨"material_run", [("my", "m1")], [("process", GVal.ref 0)]⟩])
          (GVal.glist [GVal.ref 1, GVal.ref 1]) a →
        φ a < S₂.length ∧
        entAt S₂ (φ a) = decEnt φ (entAt (setUuids [⟨"process_run", [("my", "p1")], []⟩,
          ⟨"material_run", [("my", "m1")], [("process", GVal.ref 0)]⟩]) a)) ∧
      (∀ a b, Reaches (setUuids [⟨"process_run", [("my", "p1")], []⟩,
          ⟨"material_run", [("my", "m1")], [("process", GVal.ref 0)]⟩])
          (GVal.glist [GVal.ref 1, GVal.ref 1]) a →
        Reaches (setUuids [⟨"process_run", [("my", "p1")], []⟩,
          ⟨"material_run", [("my", "m1")], [("process", GVal.ref 0)]⟩])
          (GVal.glist [GVal.ref 1, GVal.ref 1]) b →
        φ a = φ b → a = b)) :=
  ⟨by rfl,
   c1_roundtrip gemdRegistry
     [⟨"process_run", [("my", "p1")], []⟩,
      ⟨"material_run", [("my", "m1")], [("process", GVal.ref 0)]⟩]
     (GVal.glist [GVal.ref 1, GVal.ref 1]) (by rfl)⟩

/-- C2 (amended): the object hook performs no uid-conflict check.  Decoding an
entity-tagged dict always succeeds — whatever the running index already holds —
and every (lower-cased scope, id) pair of the new entity is indexed to the new
store address, silently shadowing any earlier entity indexed under the same pair:
the newest entity wins, no `ConflictingUID` error exists in the code. -/
theorem c2_overwrite_no_error (reg : Registry) (sub : Bool) (fs : List (String × GVal))
    (st : DecSt) (t : String) (c : Clazz) (h : lookupF typeKey fs = some (.gstr t))
    (hc : lookupClazz reg t = some c) (hent : c.isEntity = true) :
    loadAndIndex reg sub fs st =
      .ok (.ref st.store.length,
        { store := st.store ++ [entFromDict c (eraseKey typeKey fs)]
          index := (entFromDict c (eraseKey typeKey fs)).uids.foldl
            (fun ix p => ((lcStr p.1, p.2), st.store.length) :: ix) st.index }) ∧
    ∀ key ∈ (entFromDict c (eraseKey typeKey fs)).uids.map (fun p => (lcStr p.1, p.2)),
      lookupIndex ((entFromDict c (eraseKey typeKey fs)).uids.foldl
        (fun ix p => ((lcStr p.1, p.2), st.store.length) :: ix) st.index) key =
        some st.store.length := by
  constructor
  · rw [loadAndIndex_clazz reg sub fs st t c h hc, if_pos hent]
  · intro key hkey
    rw [lookupIndex_inserts, if_pos hkey]

theorem c2_overwrite_no_error_witness :
    lookupF typeKey [(typeKey, GVal.gstr "material_run"),
        (uidsKey, GVal.gdict [("id", GVal.gstr "1")])] = some (.gstr "material_run") ∧
    lookupClazz gemdRegistry "material_run" = some ⟨"material_run", true⟩ ∧
    (loadAndIndex gemdRegistry true
        [(typeKey, GVal.gstr "material_run"), (uidsKey, GVal.gdict [("id", GVal.gstr "1")])]
        ⟨[⟨"material_run", [("id", "1")], []⟩], [(("id", "1"), 0)]⟩ =
      .ok (.ref 1, ⟨[⟨"material_run", [("id", "1")], []⟩,
          ⟨"material_run", [("id", "1")], []⟩],
        [(("id", "1"), 1), (("id", "1"), 0)]⟩) ∧
    ∀ key ∈ [(("id", "1") : String × String)],
      lookupIndex [(("id", "1"), 1), (("id", "1"), 0)] key = some 1) :=
  ⟨rfl, rfl, by
    have h := c2_overwrite_no_error gemdRegistry true
      [(typeKey, GVal.gstr "material_run"), (uidsKey, GVal.gdict [("id", GVal.gstr "1")])]
      ⟨[⟨"material_run", [("id", "1")], []⟩], [(("id", "1"), 0)]⟩
      "material_run" ⟨"material_run", true⟩ rfl rfl rfl
    exact h⟩

set_option maxRecDepth 8192 in
/-- C2 counterexample to the spec's claim: one decode call on a document whose
context holds two distinct `material_run` entities both claiming the uid pair
("id", "1") does not fail — it returns `.ok`, the link resolves to the
later entity (store address 1), and both entities sit in the store. -/
theorem c2_conflict_counterexample :
    loads gemdRegistry (jprint (JVal.jobj [
      ("context", .jarr [
        .jobj [("type", .jstr "material_run"),
          ("uids", .jobj [("id", .jstr "1")]), ("name", .jstr "a")],
        .jobj [("type", .jstr "material_run"),
          ("uids", .jobj [("id", .jstr "1")]), ("name", .jstr "b")]]),
      ("object", .jobj [("type", .jstr "link_by_uid"),
        ("scope", .jstr "id"), ("id", .jstr "1")])])) =
      .ok (.ref 1,
        [⟨"material_run", [("id", "1")], [("name", .gstr "a")]⟩,
         ⟨"material_run", [("id", "1")], [("name", .gstr "b")]⟩]) := rfl

/-- C3: with link substitution enabled, a dict tagged with the reserved link tag
resolves through the running index — if the (lower-cased scope, id) pair is
indexed, the hook returns a reference to that already-decoded entity; if it is
not, the link token itself is returned as the value and no error is raised. -/
theorem c3_link_resolution (reg : Registry) (fs : List (String × GVal)) (st : DecSt)
    (sc i : String) (h : lookupF typeKey fs = some (.gstr linkTag))
    (hreg : lookupClazz reg linkTag = none)
    (hsc : lookupF scopeKey (eraseKey typeKey fs) = some (.gstr sc))
    (hid : lookupF idKey (eraseKey typeKey fs) = some (.gstr i)) :
    (∀ a, lookupIndex st.index (lcStr sc, i) = some a →
      loadAndIndex reg true fs st = .ok (.ref a, st)) ∧
    (lookupIndex st.index (lcStr sc, i) = none →
      loadAndIndex reg true fs st = .ok (.link sc i, st)) := by
  have hbase := loadAndIndex_link reg true fs st h hreg
  rw [hsc, hid] at hbase
  simp only [strOf] at hbase
  constructor
  · intro a ha
    rw [hbase, ha]
    simp
  · intro hnone
    rw [hbase, hnone]

theorem c3_link_resolution_witness :
    loadAndIndex gemdRegistry true
      [(typeKey, GVal.gstr linkTag), (scopeKey, GVal.gstr "My"), (idKey, GVal.gstr "1")]
      ⟨[⟨"material_run", [("my", "1")], []⟩], [(("my", "1"), 0)]⟩ =
      .ok (.ref 0, ⟨[⟨"material_run", [("my", "1")], []⟩], [(("my", "1"), 0)]⟩) ∧
    loadAndIndex gemdRegistry true
      [(typeKey, GVal.gstr linkTag), (scopeKey, GVal.gstr "My"), (idKey, GVal.gstr "1")]
      ⟨[], []⟩ =
      .ok (.link "My" "1", ⟨[], []⟩) :=
  ⟨(c3_link_resolution gemdRegistry
      [(typeKey, GVal.gstr linkTag), (scopeKey, GVal.gstr "My"), (idKey, GVal.gstr "1")]
      ⟨[⟨"material_run", [("my", "1")], []⟩], [(("my", "1"), 0)]⟩
      "My" "1" rfl rfl rfl rfl).1 0 rfl,
   (c3_link_resolution gemdRegistry
      [(typeKey, GVal.gstr linkTag), (scopeKey, GVal.gstr "My"), (idKey, GVal.gstr "1")]
      ⟨[], []⟩ "My" "1" rfl rfl rfl rfl).2 rfl⟩

mutual

/-- A parsed JSON tree holds, at some depth, a dict whose "type" member is a
string that is neither a registered tag nor the reserved link tag — the condition
under which the object hook raises its `TypeError`. -/
def hasBadTagV (reg : Registry) : JVal → Bool
  | .jobj fs =>
    (match lookupF typeKey fs with
     | some (.jstr t) => (lookupClazz reg t).isNone && !(t == linkTag)
     | _ => false) || hasBadTagF reg fs
  | .jarr xs => hasBadTagL reg xs
  | _ => false

def hasBadTagL (reg : Registry) : List JVal → Bool
  | [] => false
  | x :: l => hasBadTagV reg x || hasBadTagL reg l

def hasBadTagF (reg : Registry) : List (String × JVal) → Bool
  | [] => false
  | (_, v) :: l => hasBadTagV reg v || hasBadTagF reg l

end

theorem loadAndIndex_error_shape (reg : Registry) (sub : Bool) (fs : List (String × GVal))
    (st : DecSt) (e : DecErr) (h : loadAndIndex reg sub fs st = .error e) :
    ∃ tv, e = .unknownType tv := by
  cases htv : lookupF typeKey fs with
  | none =>
    rw [loadAndIndex_noType reg sub fs st htv] at h
    exact Except.noConfusion h
  | some tv =>
    cases tv with
    | gstr t =>
      cases hc : lookupClazz reg t with
      | some c =>
        rw [loadAndIndex_clazz reg sub fs st t c htv hc] at h
        by_cases he : c.isEntity = true
        · rw [if_pos he] at h
          exact Except.noConfusion h
        · rw [if_neg he] at h
          exact Except.noConfusion h
      | none =>
        by_cases hl : t = linkTag
        · subst hl
          rw [loadAndIndex_link reg sub fs st htv hc] at h
          cases hix : lookupIndex st.index
              (lcStr (strOf (lookupF scopeKey (eraseKey typeKey fs))),
                strOf (lookupF idKey (eraseKey typeKey fs))) with
          | some a =>
            rw [hix] at h
            cases sub with
            | true => exact Except.noConfusion h
            | false => exact Except.noConfusion h
          | none =>
            rw [hix] at h
            exact Except.noConfusion h
        · rw [loadAndIndex_unknown reg sub fs st t htv hc hl] at h
          refine ⟨.gstr t, ?_⟩
          injection h with h2
          exact h2.symm
    | gnull =>
      rw [loadAndIndex_badTag reg sub fs st _ htv (fun s hh => by cases hh)] at h
      refine ⟨GVal.gnull, ?_⟩
      injection h with h2
      exact h2.symm
    | gbool b =>
      rw [loadAndIndex_badTag reg sub fs st _ htv (fun s hh => by cases hh)] at h
      refine ⟨GVal.gbool b, ?_⟩
      injection h with h2
      exact h2.symm
    | gnum n =>
      rw [loadAndIndex_badTag reg sub fs st _ htv (fun s hh => by cases hh)] at h
      refine ⟨GVal.gnum n, ?_⟩
      injection h with h2
      exact h2.symm
    | ref a =>
      rw [loadAndIndex_badTag reg sub fs st _ htv (fun s hh => by cases hh)] at h
      refine ⟨GVal.ref a, ?_⟩
      injection h with h2
      exact h2.symm
    | link sc i =>
      rw [loadAndIndex_badTag reg sub fs st _ htv (fun s hh => by cases hh)] at h
      refine ⟨GVal.link sc i, ?_⟩
      injection h with h2
      exact h2.symm
    | record t2 fs2 =>
      rw [loadAndIndex_badTag reg sub fs st _ htv (fun s hh => by cases hh)] at h
      refine ⟨GVal.record t2 fs2, ?_⟩
      injection h with h2
      exact h2.symm
    | glist xs =>
      rw [loadAndIndex_badTag reg sub fs st _ htv (fun s hh => by cases hh)] at h
      refine ⟨GVal.glist xs, ?_⟩
      injection h with h2
      exact h2.symm
    | gdict fs2 =>
      rw [loadAndIndex_badTag reg sub fs st _ htv (fun s hh => by cases hh)] at h
      refine ⟨GVal.gdict fs2, ?_⟩
      injection h with h2
      exact h2.symm

/-- The decoder fails only with `unknownType`: the other `DecErr` values arise
outside the object hook. -/
theorem decode_error_shape (reg : Registry) (sub : Bool) :
    (∀ j, ∀ (st : DecSt) (e : DecErr), decodeJ reg sub j st = .error e →
      ∃ tv, e = .unknownType tv) ∧
    (∀ l, ∀ (st : DecSt) (e : DecErr), decodeL reg sub l st = .error e →
      ∃ tv, e = .unknownType tv) ∧
    (∀ l, ∀ (st : DecSt) (e : DecErr), decodeF reg sub l st = .error e →
      ∃ tv, e = .unknownType tv) := by
  refine jval_triple_ind _ _ _ ?_ ?_ ?_ ?_ ?_ ?_ ?_ ?_ ?_ ?_
  · intro st e h
    exact Except.noConfusion h
  · intro b st e h
    exact Except.noConfusion h
  · intro n st e h
    exact Except.noConfusion h
  · intro s st e h
    exact Except.noConfusion h
  · intro xs IH st e h
    rw [decodeJ_arr] at h
    cases hd : decodeL reg sub xs st with
    | ok p =>
      obtain ⟨vs, st'⟩ := p
      rw [hd] at h
      exact Except.noConfusion h
    | error e2 =>
      rw [hd] at h
      have hshape := IH st e2 hd
      have h3 : (Except.error e2 : Except DecErr (GVal × DecSt)) = .error e := h
      injection h3 with h2
      rwa [h2] at hshape
  · intro fs IH st e h
    rw [decodeJ_obj] at h
    cases hd : decodeF reg sub fs st with
    | ok p =>
      obtain ⟨gs, st'⟩ := p
      rw [hd] at h
      exact loadAndIndex_error_shape reg sub gs st' e h
    | error e2 =>
      rw [hd] at h
      have hshape := IH st e2 hd
      have h3 : (Except.error e2 : Except DecErr (GVal × DecSt)) = .error e := h
      injection h3 with h2
      rwa [h2] at hshape
  · intro st e h
    exact Except.noConfusion h
  · intro x l IHx IHl st e h
    rw [decodeL_cons] at h
    cases hd : decodeJ reg sub x st with
    | ok p =>
      obtain ⟨v, st'⟩ := p
      rw [hd] at h
      have h4 : (match decodeL reg sub l st' with
        | Except.ok (vs, st'') =>
          (Except.ok (v :: vs, st'') : Except DecErr (List GVal × DecSt))
        | Except.error e => Except.error e) = Except.error e := h
      cases hd2 : decodeL reg sub l st' with
      | ok q =>
        obtain ⟨vs, st''⟩ := q
        rw [hd2] at h4
        exact Except.noConfusion h4
      | error e2 =>
        rw [hd2] at h4
        have hshape := IHl st' e2 hd2
        have h3 : (Except.error e2 : Except DecErr (List GVal × DecSt)) = .error e := h4
        injection h3 with h2
        rwa [h2] at hshape
    | error e2 =>
      rw [hd] at h
      have hshape := IHx st e2 hd
      have h3 : (Except.error e2 : Except DecErr (List GVal × DecSt)) = .error e := h
      injection h3 with h2
      rwa [h2] at hshape
  · intro st e h
    exact Except.noConfusion h
  · intro k v l IHv IHl st e h
    rw [decodeF_cons] at h
    cases hd : decodeJ reg sub v st with
    | ok p =>
      obtain ⟨gv, st'⟩ := p
      rw [hd] at h
      have h4 : (match decodeF reg sub l st' with
        | Except.ok (gs, st'') =>
          (Except.ok ((k, gv) :: gs, st'') : Except DecErr (List (String × GVal) × DecSt))
        | Except.error e => Except.error e) = Except.error e := h
      cases hd2 : decodeF reg sub l st' with
      | ok q =>
        obtain ⟨gl, st''⟩ := q
        rw [hd2] at h4
        exact Except.noConfusion h4
      | error e2 =>
        rw [hd2] at h4
        have hshape := IHl st' e2 hd2
        have h3 : (Except.error e2 :
          Except DecErr (List (String × GVal) × DecSt)) = .error e := h4
        injection h3 with h2
        rwa [h2] at hshape
    | error e2 =>
      rw [hd] at h
      have hshape := IHv st e2 hd
      have h3 : (Except.error e2 :
        Except DecErr (List (String × GVal) × DecSt)) = .error e := h
      injection h3 with h2
      rwa [h2] at hshape

/-- Successful field decoding preserves a string-valued member: the decoded dict
holds the decoded string under the same key. -/
theorem decodeF_lookup_str (reg : Registry) (sub : Bool) :
    ∀ (fs : List (String × JVal)) (st : DecSt) (gs : List (String × GVal)) (st' : DecSt),
    decodeF reg sub fs st = .ok (gs, st') → ∀ (k s : String),
    lookupF k fs = some (.jstr s) → lookupF k gs = some (.gstr s) := by
  intro fs
  induction fs with
  | nil =>
    intro st gs st' hd k s hl
    exact Option.noConfusion hl
  | cons p t ih =>
    obtain ⟨k1, x⟩ := p
    intro st gs st' hd k s hl
    rw [decodeF_cons] at hd
    cases hdx : decodeJ reg sub x st with
    | error e =>
      rw [hdx] at hd
      exact Except.noConfusion hd
    | ok p2 =>
      obtain ⟨v, st1⟩ := p2
      rw [hdx] at hd
      have hd4 : (match decodeF reg sub t st1 with
        | Except.ok (gs, st'') =>
          (Except.ok ((k1, v) :: gs, st'') : Except DecErr (List (String × GVal) × DecSt))
        | Except.error e => Except.error e) = Except.ok (gs, st') := hd
      cases hdt : decodeF reg sub t st1 with
      | error e =>
        rw [hdt] at hd4
        exact Except.noConfusion hd4
      | ok q =>
        obtain ⟨gt, st2⟩ := q
        rw [hdt] at hd4
        have h3 : (Except.ok (((k1, v) :: gt : List (String × GVal)), st2) :
          Except DecErr (List (String × GVal) × DecSt)) = .ok (gs, st') := hd4
        injection h3 with h4
        injection h4 with h5 h6
        subst h5
        simp only [lookupF] at hl ⊢
        by_cases hk : k1 = k
        · rw [if_pos hk] at hl ⊢
          injection hl with hx
          subst hx
          have h7 : (Except.ok ((GVal.gstr s), st) :
            Except DecErr (GVal × DecSt)) = .ok (v, st1) := hdx
          injection h7 with h8
          injection h8 with h9 h10
          rw [← h9]
        · rw [if_neg hk] at hl ⊢
          exact ih st1 gt st2 hdt k s hl

/-- A tree holding a bad tag never decodes: the decode fails whatever the state. -/
theorem hasBadTag_error (reg : Registry) (sub : Bool) :
    (∀ j, hasBadTagV reg j = true → ∀ st : DecSt, ∃ e, decodeJ reg sub j st = .error e) ∧
    (∀ l, hasBadTagL reg l = true → ∀ st : DecSt, ∃ e, decodeL reg sub l st = .error e) ∧
    (∀ l, hasBadTagF reg l = true → ∀ st : DecSt, ∃ e, decodeF reg sub l st = .error e) := by
  refine jval_triple_ind _ _ _ ?_ ?_ ?_ ?_ ?_ ?_ ?_ ?_ ?_ ?_
  · intro h
    exact absurd h (by simp [hasBadTagV])
  · intro b h
    exact absurd h (by simp [hasBadTagV])
  · intro n h
    exact absurd h (by simp [hasBadTagV])
  · intro s h
    exact absurd h (by simp [hasBadTagV])
  · intro xs IH h st
    obtain ⟨e, he⟩ := IH (by simpa [hasBadTagV] using h) st
    exact ⟨e, by rw [decodeJ_arr, he]⟩
  · intro fs IH hbad st
    simp only [hasBadTagV, Bool.or_eq_true] at hbad
    cases hd : decodeF reg sub fs st with
    | error e2 => exact ⟨e2, by rw [decodeJ_obj, hd]⟩
    | ok p =>
      obtain ⟨gs, st'⟩ := p
      cases hbad with
      | inr hF =>
        obtain ⟨e2, he2⟩ := IH hF st
        rw [hd] at he2
        exact Except.noConfusion he2
      | inl htag =>
        cases htv : lookupF typeKey fs with
        | none =>
          rw [htv] at htag
          exact absurd htag (by simp)
        | some tv =>
          rw [htv] at htag
          cases tv with
          | jstr t =>
            have htag2 : ((lookupClazz reg t).isNone && !(t == linkTag)) = true := htag
            rw [Bool.and_eq_true] at htag2
            have hc : lookupClazz reg t = none := Option.isNone_iff_eq_none.mp htag2.1
            have hlt : t ≠ linkTag := by
              have := htag2.2
              rw [Bool.not_eq_true'] at this
              exact beq_eq_false_iff_ne.mp this
            have hlk := decodeF_lookup_str reg sub fs st gs st' hd typeKey t htv
            refine ⟨.unknownType (.gstr t), ?_⟩
            rw [decodeJ_obj, hd]
            exact loadAndIndex_unknown reg sub gs st' t hlk hc hlt
          | jnull => exact absurd htag (by simp)
          | jbool b => exact absurd htag (by simp)
          | jnum n => exact absurd htag (by simp)
          | jarr xs => exact absurd htag (by simp)
          | jobj fs2 => exact absurd htag (by simp)
  · intro h
    exact absurd h (by simp [hasBadTagL])
  · intro x l IHx IHl h st
    simp only [hasBadTagL, Bool.or_eq_true] at h
    cases hd : decodeJ reg sub x st with
    | error e2 => exact ⟨e2, by rw [decodeL_cons, hd]⟩
    | ok p =>
      obtain ⟨v, st'⟩ := p
      cases h with
      | inl hx =>
        obtain ⟨e2, he2⟩ := IHx hx st
        rw [hd] at he2
        exact Except.noConfusion he2
      | inr hl =>
        obtain ⟨e2, he2⟩ := IHl hl st'
        refine ⟨e2, ?_⟩
        rw [decodeL_cons, hd]
        show (match decodeL reg sub l st' with
          | Except.ok (vs, st'') =>
            (Except.ok (v :: vs, st'') : Except DecErr (List GVal × DecSt))
          | Except.error e => Except.error e) = Except.error e2
        rw [he2]
  · intro h
    exact absurd h (by simp [hasBadTagF])
  · intro k v l IHv IHl h st
    simp only [hasBadTagF, Bool.or_eq_true] at h
    cases hd : decodeJ reg sub v st with
    | error e2 => exact ⟨e2, by rw [decodeF_cons, hd]⟩
    | ok p =>
      obtain ⟨gv, st'⟩ := p
      cases h with
      | inl hx =>
        obtain ⟨e2, he2⟩ := IHv hx st
        rw [hd] at he2
        exact Except.noConfusion he2
      | inr hl =>
        obtain ⟨e2, he2⟩ := IHl hl st'
        refine ⟨e2, ?_⟩
        rw [decodeF_cons, hd]
        show (match decodeF reg sub l st' with
          | Except.ok (gs, st'') =>
            (Except.ok ((k, gv) :: gs, st'') : Except DecErr (List (String × GVal) × DecSt))
          | Except.error e => Except.error e) = Except.error e2
        rw [he2]

/-- C4: a document containing a dict whose "type" tag is a string that is neither
registered nor the reserved link tag fails to decode with an `unknownType` error,
at every entry point — `loads`, `load` and `raw_loads`. -/
theorem c4_unknown_type (reg : Registry) (s : String) (j : JVal)
    (hparse : jparse s = some j) (hbad : hasBadTagV reg j = true) :
    (∃ tv, loads reg s = .error (.unknownType tv)) ∧
    (∃ tv, load reg s = .error (.unknownType tv)) ∧
    (∃ tv, rawLoads reg s = .error (.unknownType tv)) := by
  obtain ⟨e1, he1⟩ := (hasBadTag_error reg true).1 j hbad emptySt
  obtain ⟨e2, he2⟩ := (hasBadTag_error reg false).1 j hbad emptySt
  obtain ⟨tv1, rfl⟩ := (decode_error_shape reg true).1 j emptySt e1 he1
  obtain ⟨tv2, rfl⟩ := (decode_error_shape reg false).1 j emptySt e2 he2
  refine ⟨⟨tv1, ?_⟩, ⟨tv1, ?_⟩, ⟨tv2, ?_⟩⟩
  · simp only [loads, hparse, he1]
  · simp only [load, loads, hparse, he1]
  · simp only [rawLoads, hparse, he2]

theorem c4_unknown_type_witness :
    jparse (jprint (JVal.jobj [("type", JVal.jstr "mystery")])) =
      some (JVal.jobj [("type", JVal.jstr "mystery")]) ∧
    hasBadTagV gemdRegistry (JVal.jobj [("type", JVal.jstr "mystery")]) = true ∧
    ((∃ tv, loads gemdRegistry (jprint (JVal.jobj [("type", JVal.jstr "mystery")])) =
        .error (.unknownType tv)) ∧
     (∃ tv, load gemdRegistry (jprint (JVal.jobj [("type", JVal.jstr "mystery")])) =
        .error (.unknownType tv)) ∧
     (∃ tv, rawLoads gemdRegistry (jprint (JVal.jobj [("type", JVal.jstr "mystery")])) =
        .error (.unknownType tv))) :=
  ⟨jparse_jprint _, rfl,
   c4_unknown_type gemdRegistry (jprint (JVal.jobj [("type", JVal.jstr "mystery")]))
     (JVal.jobj [("type", JVal.jstr "mystery")]) (jparse_jprint _) rfl⟩

/-- C5: `dumps` is deterministic across repeated calls on the same instance.  The
first call returns the uid-assigned store alongside its output (in Python,
`set_uuids` mutates the entities); calling `dumps` again on that mutated store
returns the byte-identical string and the identical store, because uid assignment
is idempotent and key ordering is a pure sort. -/
theorem c5_dumps_deterministic (S : List Entity) (g : GVal) :
    dumps (dumps S g).2 g = dumps S g := by
  show dumps (setUuids S) g = dumps S g
  simp only [dumps, setUuids_idem]

mutual

/-- No fully expanded entity (`went`) occurs anywhere in a wire value. -/
def wentFreeW : WVal → Bool
  | .went _ _ _ => false
  | .wrec _ fs => wentFreeF fs
  | .wlist xs => wentFreeL xs
  | .wdict fs => wentFreeF fs
  | _ => true

def wentFreeL : List WVal → Bool
  | [] => true
  | x :: l => wentFreeW x && wentFreeL l

def wentFreeF : List (String × WVal) → Bool
  | [] => true
  | (_, v) :: l => wentFreeW v && wentFreeF l

end

/-- Below the outermost value, `substitute_links` produces no full entity
encoding: every entity reference turns into a bare link. -/
theorem wentFree_substN (S : List Entity) :
    (∀ v, wentFreeW (substN S v) = true) ∧
    (∀ l, wentFreeL (substNL S l) = true) ∧
    (∀ l, wentFreeF (substNF S l) = true) := by
  refine gval_triple_ind _ _ _ ?_ ?_ ?_ ?_ ?_ ?_ ?_ ?_ ?_ ?_ ?_ ?_ ?_
  · rfl
  · intro b
    rfl
  · intro n
    rfl
  · intro s
    rfl
  · intro a
    show wentFreeW (linkOf (S.getD a defaultEntity)) = true
    rw [linkOf.eq_def]
    cases hu : (S.getD a defaultEntity).uids with
    | nil => rfl
    | cons p t =>
      obtain ⟨s2, i2⟩ := p
      rfl
  · intro sc i
    rfl
  · intro t fs IH
    exact IH
  · intro xs IH
    exact IH
  · intro fs IH
    exact IH
  · rfl
  · intro x l IHx IHl
    show (wentFreeW (substN S x) && wentFreeL (substNL S l)) = true
    rw [IHx, IHl]
    rfl
  · rfl
  · intro k v l IHv IHl
    show (wentFreeW (substN S v) && wentFreeF (substNF S l)) = true
    rw [IHv, IHl]
    rfl

theorem mem_keysOf_insKey {α : Type} (k k' : String) (v : α) (l : List (String × α)) :
    k ∈ keysOf (insKey (k', v) l) ↔ k = k' ∨ k ∈ keysOf l := by
  induction l with
  | nil => simp [insKey, keysOf]
  | cons q t ih =>
    obtain ⟨kq, vq⟩ := q
    by_cases hlt : strLt k' kq = true
    · show k ∈ keysOf (if strLt k' kq then _ else _) ↔ _
      rw [if_pos hlt, keysOf_cons, keysOf_cons]
      simp [List.mem_cons]
    · show k ∈ keysOf (if strLt k' kq then _ else _) ↔ _
      rw [if_neg hlt, keysOf_cons, keysOf_cons]
      simp only [List.mem_cons, ih]
      tauto

theorem mem_keysOf_sortKeys {α : Type} (k : String) (l : List (String × α)) :
    k ∈ keysOf (sortKeys l) ↔ k ∈ keysOf l := by
  induction l with
  | nil => simp [sortKeys]
  | cons p t ih =>
    obtain ⟨kp, vp⟩ := p
    show k ∈ keysOf (insKey (kp, vp) (sortKeys t)) ↔ _
    rw [mem_keysOf_insKey, keysOf_cons, ih]
    simp [List.mem_cons]


/-- C6: `thin_dumps` first assigns uids (returning the mutated store), and its
output is the entity itself expanded — tag, uids and link-substituted fields —
with every referenced entity appearing only as a bare link (`wentFree`), under a
top-level object that has no "context" member.  `dumps` by contrast lists every
reachable entity exactly once in the context, each fully expanded. -/
theorem c6_thin_vs_full (S : List Entity) (r : Nat) :
    ((thinDumps S (GVal.ref r)).1 =
      jprint (encodeW (.went (entAt (setUuids S) r).typ (entAt (setUuids S) r).uids
        (substNF (setUuids S) (entAt (setUuids S) r).fields))) ∧
     wentFreeF (substNF (setUuids S) (entAt (setUuids S) r).fields) = true) ∧
    (encodeW (.went (entAt (setUuids S) r).typ (entAt (setUuids S) r).uids
        (substNF (setUuids S) (entAt (setUuids S) r).fields)) =
      JVal.jobj (sortKeys ((typeKey, JVal.jstr (entAt (setUuids S) r).typ) ::
        (uidsKey, JVal.jobj (sortKeys ((entAt (setUuids S) r).uids.map
          (fun p => (p.1, JVal.jstr p.2))))) ::
        encodeF (substNF (setUuids S) (entAt (setUuids S) r).fields)))) ∧
    ((entAt (setUuids S) r).fields.all (fun p => p.1 != contextKey) = true →
      contextKey ∉ keysOf (sortKeys ((typeKey, JVal.jstr (entAt (setUuids S) r).typ) ::
        (uidsKey, JVal.jobj (sortKeys ((entAt (setUuids S) r).uids.map
          (fun p => (p.1, JVal.jstr p.2))))) ::
        encodeF (substNF (setUuids S) (entAt (setUuids S) r).fields)))) ∧
    (r < S.length → (entAt (thinDumps S (GVal.ref r)).2 r).uids ≠ []) ∧
    ((∀ a ∈ List.range (setUuids S).length, ∀ b ∈ refsE (setUuids S) a, b < a) →
      r < (setUuids S).length →
      ∀ a, Reaches (setUuids S) (GVal.gdict [(objectKey, GVal.ref r)]) a →
        (ctxAddrs (setUuids S) (GVal.gdict [(objectKey, GVal.ref r)])).count a = 1 ∧
        substTop (setUuids S) (GVal.ref a) =
          .went (entAt (setUuids S) a).typ (entAt (setUuids S) a).uids
            (substNF (setUuids S) (entAt (setUuids S) a).fields)) := by
  refine ⟨⟨rfl, (wentFree_substN (setUuids S)).2.2 _⟩, rfl, ?_, ?_, ?_⟩
  · intro hfall hmem
    rw [mem_keysOf_sortKeys, keysOf_cons, keysOf_cons, keysOf_encodeF, keysOf_substNF] at hmem
    simp only [List.mem_cons] at hmem
    rcases hmem with h1 | h1 | h1
    · exact absurd h1 (by decide)
    · exact absurd h1 (by decide)
    · exact not_mem_keys_of_all contextKey _ hfall h1
  · intro hr
    exact setUuids_uids_ne_nil S r (by rw [setUuids_length]; exact hr)
  · intro htopoB hr a ha
    have htopo : ∀ a, ∀ b ∈ refsE (setUuids S) a, b < a := by
      intro a2 b hb
      by_cases ha2 : a2 < (setUuids S).length
      · exact htopoB a2 (List.mem_range.mpr ha2) b hb
      · rw [refsE_out (setUuids S) a2 (by omega)] at hb
        simp at hb
    have hvalid : ∀ x ∈ refsV (GVal.gdict [(objectKey, GVal.ref r)]),
        x < (setUuids S).length := by
      intro x hx
      have : x ∈ refsV (GVal.ref r) := (mem_refsV_envelope (GVal.ref r) x).mp hx
      simp only [refsV, List.mem_singleton] at this
      omega
    refine ⟨?_, rfl⟩
    exact List.count_eq_one_of_mem
      (ctxAddrs_nodup (setUuids S) (GVal.gdict [(objectKey, GVal.ref r)]))
      ((mem_ctxAddrs (setUuids S) (GVal.gdict [(objectKey, GVal.ref r)]) htopo hvalid a).mpr ha)

theorem c6_thin_vs_full_witness :
    (ctxAddrs (setUuids [⟨"process_run", [("my", "p2")], []⟩,
      ⟨"material_run", [("my", "m2")], [("process", GVal.ref 0)]⟩])
      (GVal.gdict [(objectKey, GVal.ref 1)])).count 0 = 1 :=
  ((c6_thin_vs_full [⟨"process_run", [("my", "p2")], []⟩,
      ⟨"material_run", [("my", "m2")], [("process", GVal.ref 0)]⟩] 1).2.2.2.2
    (by decide) (by decide) 0
    (@Reaches.step (setUuids [⟨"process_run", [("my", "p2")], []⟩,
        ⟨"material_run", [("my", "m2")], [("process", GVal.ref 0)]⟩])
      (GVal.gdict [(objectKey, GVal.ref 1)]) 1 0
      (Reaches.direct (by decide)) (by decide))).1

theorem lookupClazz_cons_eq (k : String) (c0 : Clazz) (l : Registry) (t : String)
    (h : (k == t) = true) : lookupClazz ((k, c0) :: l) t = some c0 := by
  simp only [lookupClazz]
  rw [List.find?_cons_of_pos _ (by simpa using h)]

theorem lookupClazz_cons_ne (k : String) (c0 : Clazz) (l : Registry) (t : String)
    (h : (k == t) = false) : lookupClazz ((k, c0) :: l) t = lookupClazz l t := by
  simp only [lookupClazz]
  rw [List.find?_cons_of_neg _ (by simp [h])]

theorem lookupClazz_map_replace (t : String) (c' : Clazz) :
    ∀ r : Registry, r.any (fun p => p.1 == t) = true →
      lookupClazz (r.map (fun p => if p.1 == t then (t, c') else p)) t = some c' := by
  intro r
  induction r with
  | nil =>
    intro h
    simp at h
  | cons p rest ih =>
    intro h
    obtain ⟨k, c0⟩ := p
    simp only [List.map_cons]
    by_cases hk : (k == t) = true
    · rw [if_pos (by simpa using hk)]
      exact lookupClazz_cons_eq t c' _ t (by simp)
    · have hk2 : (k == t) = false := Bool.eq_false_iff.mpr hk
      rw [if_neg (by simp [hk2])]
      rw [lookupClazz_cons_ne k c0 _ t hk2]
      simp only [List.any_cons, hk2, Bool.false_or] at h
      exact ih h

theorem lookupClazz_map_replace_other (t : String) (c' : Clazz) (t2 : String) (h : t2 ≠ t) :
    ∀ r : Registry,
      lookupClazz (r.map (fun p => if p.1 == t then (t, c') else p)) t2 =
        lookupClazz r t2 := by
  intro r
  induction r with
  | nil => rfl
  | cons p rest ih =>
    obtain ⟨k, c0⟩ := p
    simp only [List.map_cons]
    by_cases hk : (k == t) = true
    · rw [if_pos (by simpa using hk)]
      have ht2 : (t == t2) = false := beq_eq_false_iff_ne.mpr (fun hh => h hh.symm)
      have hk3 : (k == t2) = false := by
        have hkt : k = t := by simpa using hk
        rw [hkt]
        exact ht2
      rw [lookupClazz_cons_ne t c' _ t2 ht2, lookupClazz_cons_ne k c0 rest t2 hk3]
      exact ih
    · have hk2 : (k == t) = false := Bool.eq_false_iff.mpr hk
      rw [if_neg (by simp [hk2])]
      by_cases hv : (k == t2) = true
      · rw [lookupClazz_cons_eq k c0 _ t2 hv, lookupClazz_cons_eq k c0 rest t2 hv]
      · have hv2 : (k == t2) = false := Bool.eq_false_iff.mpr hv
        rw [lookupClazz_cons_ne k c0 _ t2 hv2, lookupClazz_cons_ne k c0 rest t2 hv2]
        exact ih

theorem lookupClazz_append_single (t : String) (c' : Clazz) :
    ∀ r : Registry, r.any (fun p => p.1 == t) = false →
      lookupClazz (r ++ [(t, c')]) t = some c' := by
  intro r
  induction r with
  | nil =>
    intro h
    exact lookupClazz_cons_eq t c' [] t (by simp)
  | cons p rest ih =>
    intro h
    obtain ⟨k, c0⟩ := p
    rw [List.any_cons] at h
    rw [Bool.or_eq_false_iff] at h
    rw [List.cons_append, lookupClazz_cons_ne k c0 _ t h.1]
    exact ih h.2

theorem lookupClazz_append_other (t : String) (c' : Clazz) (t2 : String) (h : t2 ≠ t) :
    ∀ r : Registry, lookupClazz (r ++ [(t, c')]) t2 = lookupClazz r t2 := by
  intro r
  induction r with
  | nil =>
    have ht2 : (t == t2) = false := beq_eq_false_iff_ne.mpr (fun hh => h hh.symm)
    show lookupClazz [(t, c')] t2 = lookupClazz [] t2
    rw [lookupClazz_cons_ne t c' [] t2 ht2]
  | cons p rest ih =>
    obtain ⟨k, c0⟩ := p
    rw [List.cons_append]
    by_cases hv : (k == t2) = true
    · rw [lookupClazz_cons_eq k c0 _ t2 hv, lookupClazz_cons_eq k c0 rest t2 hv]
    · have hv2 : (k == t2) = false := Bool.eq_false_iff.mpr hv
      rw [lookupClazz_cons_ne k c0 _ t2 hv2, lookupClazz_cons_ne k c0 rest t2 hv2]
      exact ih

theorem lookupClazz_setReg_self (r : Registry) (t : String) (c' : Clazz) :
    lookupClazz (setReg r t c') t = some c' := by
  rw [setReg]
  by_cases hany : r.any (fun p => p.1 == t) = true
  · rw [if_pos hany]
    exact lookupClazz_map_replace t c' r hany
  · rw [if_neg hany]
    exact lookupClazz_append_single t c' r (Bool.eq_false_iff.mpr hany)

theorem lookupClazz_setReg_other (r : Registry) (t : String) (c' : Clazz)
    (t2 : String) (h : t2 ≠ t) : lookupClazz (setReg r t c') t2 = lookupClazz r t2 := by
  rw [setReg]
  by_cases hany : r.any (fun p => p.1 == t) = true
  · rw [if_pos hany]
    exact lookupClazz_map_replace_other t c' t2 h r
  · rw [if_neg hany]
    exact lookupClazz_append_other t c' t2 h r

/-- C7: registering a class under a tag that already has a mapping succeeds and
overrides the mapping — lookups of that tag now return the new class, lookups of
every other tag are unchanged, and every subsequent decode of a dict carrying
that tag dispatches through the newly registered class. -/
theorem c7_register_override (r : Registry) (t : String) (c c' : Clazz)
    (hc : lookupClazz r t = some c) :
    (registerClasses r (.asDict [(.pstr t, .pclazz c')])).2 = none ∧
    lookupClazz (registerClasses r (.asDict [(.pstr t, .pclazz c')])).1 t = some c' ∧
    (∀ t2, t2 ≠ t →
      lookupClazz (registerClasses r (.asDict [(.pstr t, .pclazz c')])).1 t2 =
        lookupClazz r t2) ∧
    (∀ (sub : Bool) (fs : List (String × GVal)) (st : DecSt),
      lookupF typeKey fs = some (.gstr t) →
      loadAndIndex (registerClasses r (.asDict [(.pstr t, .pclazz c')])).1 sub fs st =
        (if c'.isEntity then
          .ok (.ref st.store.length,
            { store := st.store ++ [entFromDict c' (eraseKey typeKey fs)]
              index := (entFromDict c' (eraseKey typeKey fs)).uids.foldl
                (fun ix p => ((lcStr p.1, p.2), st.store.length) :: ix) st.index })
        else .ok (.record c'.typ (eraseKey typeKey fs), st))) := by
  have hreg1 : (registerClasses r (.asDict [(.pstr t, .pclazz c')])).1 = setReg r t c' := rfl
  refine ⟨rfl, ?_, ?_, ?_⟩
  · rw [hreg1]
    exact lookupClazz_setReg_self r t c'
  · intro t2 h2
    rw [hreg1]
    exact lookupClazz_setReg_other r t c' t2 h2
  · intro sub fs st hf
    rw [hreg1]
    exact loadAndIndex_clazz (setReg r t c') sub fs st t c' hf
      (lookupClazz_setReg_self r t c')

theorem c7_register_override_witness :
    (registerClasses gemdRegistry
      (.asDict [(.pstr "material_run", .pclazz ⟨"material_run_v2", false⟩)])).2 = none ∧
    lookupClazz (registerClasses gemdRegistry
      (.asDict [(.pstr "material_run", .pclazz ⟨"material_run_v2", false⟩)])).1
      "material_run" = some ⟨"material_run_v2", false⟩ ∧
    lookupClazz (registerClasses gemdRegistry
      (.asDict [(.pstr "material_run", .pclazz ⟨"material_run_v2", false⟩)])).1
      "process_run" = lookupClazz gemdRegistry "process_run" :=
  ⟨(c7_register_override gemdRegistry "material_run" ⟨"material_run", true⟩
      ⟨"material_run_v2", false⟩ rfl).1,
   (c7_register_override gemdRegistry "material_run" ⟨"material_run", true⟩
      ⟨"material_run_v2", false⟩ rfl).2.1,
   (c7_register_override gemdRegistry "material_run" ⟨"material_run", true⟩
      ⟨"material_run_v2", false⟩ rfl).2.2.1 "process_run" (by decide)⟩

/-- C8: `register_classes` fails with `InvalidRegistration` exactly when its
argument is not a mapping, or some key is not a string, or some value is not a
class; with a mapping of string keys and class values it succeeds. -/
theorem c8_invalid_registration (r : Registry) :
    (∀ v, (registerClasses r (.notDict v)).2 = some .invalidRegistration) ∧
    (∀ entries, (registerClasses r (.asDict entries)).2 = some .invalidRegistration ↔
      ((∃ p ∈ entries, isStr p.1 = false) ∨ (∃ p ∈ entries, isClazzVal p.2 = false))) ∧
    (∀ entries, (∀ p ∈ entries, isStr p.1 = true ∧ isClazzVal p.2 = true) →
      (registerClasses r (.asDict entries)).2 = none) := by
  have hfilt : ∀ (entries : List (PyVal × PyVal)) (f : PyVal × PyVal → Bool),
      ((entries.filter f).length > 0 ↔ ∃ p ∈ entries, f p = true) := by
    intro entries f
    constructor
    · intro hl
      have hne : entries.filter f ≠ [] := by
        intro hnil
        rw [hnil] at hl
        simp at hl
      obtain ⟨p, hp⟩ := List.exists_mem_of_ne_nil _ hne
      exact ⟨p, (List.mem_filter.mp hp).1, (List.mem_filter.mp hp).2⟩
    · rintro ⟨p, hp, hf⟩
      exact List.length_pos_of_mem (List.mem_filter.mpr ⟨hp, hf⟩)
  refine ⟨fun v => rfl, ?_, ?_⟩
  · intro entries
    show ((if (entries.filter (fun p => !isStr p.1)).length > 0 then
        (r, some RegErr.invalidRegistration)
      else if (entries.filter (fun p => !isClazzVal p.2)).length > 0 then
        (r, some RegErr.invalidRegistration)
      else (updateReg r (entries.map (fun p => (strValOf p.1, clazzValOf p.2))), none)).2 =
        some .invalidRegistration) ↔ _
    by_cases h1 : (entries.filter (fun p => !isStr p.1)).length > 0
    · rw [if_pos h1]
      simp only [true_iff]
      left
      obtain ⟨p, hp, hf⟩ := (hfilt entries _).mp h1
      exact ⟨p, hp, by simpa using hf⟩
    · rw [if_neg h1]
      by_cases h2 : (entries.filter (fun p => !isClazzVal p.2)).length > 0
      · rw [if_pos h2]
        simp only [true_iff]
        right
        obtain ⟨p, hp, hf⟩ := (hfilt entries _).mp h2
        exact ⟨p, hp, by simpa using hf⟩
      · rw [if_neg h2]
        constructor
        · intro hh
          exact Option.noConfusion hh
        · intro hh
          exfalso
          cases hh with
          | inl hx =>
            obtain ⟨p, hp, hf⟩ := hx
            exact h1 ((hfilt entries _).mpr ⟨p, hp, by simp [hf]⟩)
          | inr hx =>
            obtain ⟨p, hp, hf⟩ := hx
            exact h2 ((hfilt entries _).mpr ⟨p, hp, by simp [hf]⟩)
  · intro entries hall
    have hA : ¬((entries.filter (fun p => !isStr p.1)).length > 0) := by
      intro hh
      obtain ⟨p, hp, hf⟩ := (hfilt entries _).mp hh
      have hf2 : (!isStr p.1) = true := hf
      rw [(hall p hp).1] at hf2
      exact absurd hf2 (by decide)
    have hB : ¬((entries.filter (fun p => !isClazzVal p.2)).length > 0) := by
      intro hh
      obtain ⟨p, hp, hf⟩ := (hfilt entries _).mp hh
      have hf2 : (!isClazzVal p.2) = true := hf
      rw [(hall p hp).2] at hf2
      exact absurd hf2 (by decide)
    show (if (entries.filter (fun p => !isStr p.1)).length > 0 then
        (r, some RegErr.invalidRegistration)
      else if (entries.filter (fun p => !isClazzVal p.2)).length > 0 then
        (r, some RegErr.invalidRegistration)
      else (updateReg r (entries.map (fun p => (strValOf p.1, clazzValOf p.2))), none)).2 =
        none
    rw [if_neg hA, if_neg hB]

theorem c8_invalid_registration_witness :
    (registerClasses gemdRegistry (.asDict [(.pstr "x", .pother 7)])).2 =
      some .invalidRegistration ∧
    (registerClasses gemdRegistry
      (.asDict [(.pstr "x", .pclazz ⟨"x", false⟩)])).2 = none :=
  ⟨((c8_invalid_registration gemdRegistry).2.1 [(.pstr "x", .pother 7)]).mpr
      (Or.inr ⟨(.pstr "x", .pother 7), by simp, rfl⟩),
   (c8_invalid_registration gemdRegistry).2.2 [(.pstr "x", .pclazz ⟨"x", false⟩)]
      (by intro p hp; simp only [List.mem_singleton] at hp; subst hp; exact ⟨rfl, rfl⟩)⟩

theorem decodeF_keys (reg : Registry) (sub : Bool) :
    ∀ (fs : List (String × JVal)) (st : DecSt) (gs : List (String × GVal)) (st' : DecSt),
    decodeF reg sub fs st = .ok (gs, st') → keysOf gs = keysOf fs := by
  intro fs
  induction fs with
  | nil =>
    intro st gs st' hd
    have h3 : (Except.ok (([] : List (String × GVal)), st) :
      Except DecErr (List (String × GVal) × DecSt)) = .ok (gs, st') := hd
    injection h3 with h4
    injection h4 with h5 h6
    rw [← h5]
    rfl
  | cons p t ih =>
    obtain ⟨k1, x⟩ := p
    intro st gs st' hd
    rw [decodeF_cons] at hd
    cases hdx : decodeJ reg sub x st with
    | error e =>
      rw [hdx] at hd
      exact Except.noConfusion hd
    | ok p2 =>
      obtain ⟨v, st1⟩ := p2
      rw [hdx] at hd
      have hd4 : (match decodeF reg sub t st1 with
        | Except.ok (gs, st'') =>
          (Except.ok ((k1, v) :: gs, st'') : Except DecErr (List (String × GVal) × DecSt))
        | Except.error e => Except.error e) = Except.ok (gs, st') := hd
      cases hdt : decodeF reg sub t st1 with
      | error e =>
        rw [hdt] at hd4
        exact Except.noConfusion hd4
      | ok q =>
        obtain ⟨gt, st2⟩ := q
        rw [hdt] at hd4
        have h3 : (Except.ok (((k1, v) :: gt : List (String × GVal)), st2) :
          Except DecErr (List (String × GVal) × DecSt)) = .ok (gs, st') := hd4
        injection h3 with h4
        injection h4 with h5 h6
        rw [← h5, keysOf_cons, keysOf_cons, ih st1 gt st2 hdt]

/-- C9: a decoded mapping without a "type" member passes through the object hook
unchanged — returned as a plain dict, with the decode state untouched (nothing
indexed) and no error; hence a parsed JSON object without "type" whose members
decode decodes to the plain dict of its decoded members. -/
theorem c9_plain_dict_passthrough (reg : Registry) (sub : Bool) :
    (∀ (fs : List (String × GVal)) (st : DecSt), lookupF typeKey fs = none →
      loadAndIndex reg sub fs st = .ok (.gdict fs, st)) ∧
    (∀ (fs : List (String × JVal)) (st : DecSt) (gs : List (String × GVal)) (st' : DecSt),
      decodeF reg sub fs st = .ok (gs, st') → typeKey ∉ keysOf fs →
      decodeJ reg sub (.jobj fs) st = .ok (.gdict gs, st')) := by
  refine ⟨fun fs st h => loadAndIndex_noType reg sub fs st h, ?_⟩
  intro fs st gs st' hd hmem
  rw [decodeJ_obj, hd]
  have hk : keysOf gs = keysOf fs := decodeF_keys reg sub fs st gs st' hd
  have hnone : lookupF typeKey gs = none :=
    lookupF_none_of_not_mem _ _ (by rw [hk]; exact hmem)
  exact loadAndIndex_noType reg sub gs st' hnone

theorem c9_plain_dict_passthrough_witness :
    loadAndIndex gemdRegistry true [("a", GVal.gstr "b")] emptySt =
      .ok (.gdict [("a", GVal.gstr "b")], emptySt) ∧
    decodeJ gemdRegistry true (.jobj [("a", JVal.jstr "b")]) emptySt =
      .ok (.gdict [("a", GVal.gstr "b")], emptySt) :=
  ⟨(c9_plain_dict_passthrough gemdRegistry true).1 [("a", .gstr "b")] emptySt rfl,
   (c9_plain_dict_passthrough gemdRegistry true).2 [("a", .jstr "b")] emptySt
     [("a", .gstr "b")] emptySt rfl (by decide)⟩

/-- C10: a failed registration never modifies the class index — on every argument
on which `register_classes` raises, the registry it leaves behind is exactly the
registry it started from, because the `dict.update` runs only after every check
has passed. -/
theorem c10_register_atomic (r : Registry) (arg : RegArg)
    (h : (registerClasses r arg).2.isSome = true) :
    (registerClasses r arg).1 = r := by
  cases arg with
  | notDict v => rfl
  | asDict entries =>
    have hexp : registerClasses r (.asDict entries) =
      (if (entries.filter (fun p => !isStr p.1)).length > 0 then
        (r, some RegErr.invalidRegistration)
      else if (entries.filter (fun p => !isClazzVal p.2)).length > 0 then
        (r, some RegErr.invalidRegistration)
      else (updateReg r (entries.map (fun p => (strValOf p.1, clazzValOf p.2))),
        none)) := rfl
    rw [hexp] at h ⊢
    by_cases h1 : (entries.filter (fun p => !isStr p.1)).length > 0
    · rw [if_pos h1]
    · rw [if_neg h1] at h ⊢
      by_cases h2 : (entries.filter (fun p => !isClazzVal p.2)).length > 0
      · rw [if_pos h2]
      · rw [if_neg h2] at h
        simp at h

theorem c10_register_atomic_witness :
    (registerClasses gemdRegistry (.asDict [(.pother 0, .pclazz ⟨"x", true⟩)])).1 =
      gemdRegistry ∧
    (registerClasses gemdRegistry (.asDict [(.pother 0, .pclazz ⟨"x", true⟩)])).2.isSome =
      true :=
  ⟨c10_register_atomic gemdRegistry (.asDict [(.pother 0, .pclazz ⟨"x", true⟩)]) rfl, rfl⟩
